import Mathlib

/-!
Verification development for the haya-data distributed file-storage service.

The Python source (server side: `distribute.py`, `restore.py`, `encrypt.py`,
`database.py`, `logic.py`, `gui.py`; shared: `utils.py`, `protocol/__init__.py`)
is shallowly embedded as executable Lean definitions:

* byte strings are `List Nat` (each entry a byte value; the only operation the
  claims need, bytewise XOR, never leaves the byte range);
* the SHA-256 hex digest `encrypt.hash_string` is abstracted as a parameter
  `hashFn : List Nat → List Nat`; nothing about its internals is used except
  congruence (equal inputs give equal digests), and in counterexamples it is
  instantiated with an injective function, modelling the practical collision
  freeness of SHA-256;
* AES-256-CTR with a zero nonce (`encrypt.encrypt` / `encrypt.decrypt`) is a
  keystream XOR; the AES keystream derived from the per-file key is abstracted
  as a parameter `ks : Nat → Nat`, and encryption/decryption are both
  `ctr ks 0`, exactly the structure of CTR mode;
* the msgpack+zlib serialization (`protocol.build` / `protocol.parse`) of the
  metadata payload is modelled by a concrete injective length-prefixed codec
  `encodeMeta` / `decodeMeta` with `decodeMeta (encodeMeta m) = some m`, the
  only property of the serializer the engines rely on;
* block files on disk are identified by their structured key
  `(client, block_number, block_type)`; the on-disk name
  `{name}_{number}.{block_type}` determines and is determined by that key for
  a fixed file name, since `number` and the block types contain neither `_`
  nor `.`.
-/

namespace HayaData

/-- Byte strings: a list of byte values. -/
abbrev Bytes := List Nat

/-! ## `encrypt.xor_strings`

The source (`src/server/encrypt.py` lines 11-37) zips all argument strings
with `itertools.izip_longest(fillvalue='\x00')`, so shorter operands are
right-padded with zero bytes to the longest, and XORs each column.  All call
sites use it with two arguments; we embed the binary form structurally. -/
def xor_strings : Bytes → Bytes → Bytes
  | [], b => b.map (fun y => 0 ^^^ y)
  | x :: xs, [] => (x ^^^ 0) :: xor_strings xs []
  | x :: xs, y :: ys => (x ^^^ y) :: xor_strings xs ys

@[simp] theorem xor_strings_nil_left (b : Bytes) : xor_strings [] b = b := by
  show b.map (fun y => 0 ^^^ y) = b
  simp [Nat.zero_xor]

@[simp] theorem xor_strings_nil_right (a : Bytes) : xor_strings a [] = a := by
  induction a with
  | nil => simp [xor_strings]
  | cons x xs ih => simp [xor_strings, ih, Nat.xor_zero]

@[simp] theorem xor_strings_cons (x y : Nat) (xs ys : Bytes) :
    xor_strings (x :: xs) (y :: ys) = (x ^^^ y) :: xor_strings xs ys := by
  simp [xor_strings]

@[simp] theorem length_xor_strings (a b : Bytes) :
    (xor_strings a b).length = max a.length b.length := by
  induction a generalizing b with
  | nil => simp
  | cons x xs ih =>
    cases b with
    | nil => simp
    | cons y ys => simp [ih, Nat.succ_max_succ]

@[simp] theorem getD_xor_strings (a b : Bytes) (i : Nat) :
    (xor_strings a b).getD i 0 = a.getD i 0 ^^^ b.getD i 0 := by
  induction a generalizing b i with
  | nil =>
    simp [Nat.zero_xor]
  | cons x xs ih =>
    cases b with
    | nil => simp [Nat.xor_zero]
    | cons y ys =>
      cases i with
      | zero => simp
      | succ j =>
        rw [xor_strings_cons, List.getD_cons_succ, List.getD_cons_succ,
          List.getD_cons_succ]
        exact ih ys j

/-- Extensionality for byte strings: equal length and equal bytes (with
default 0) at every index imply equality. -/
theorem bytes_ext {a b : Bytes} (hlen : a.length = b.length)
    (h : ∀ i, a.getD i 0 = b.getD i 0) : a = b := by
  induction a generalizing b with
  | nil => cases b with
    | nil => rfl
    | cons y ys => simp at hlen
  | cons x xs ih =>
    cases b with
    | nil => simp at hlen
    | cons y ys =>
      have h0 := h 0
      simp at h0
      have : xs = ys := by
        apply ih
        · simpa using hlen
        · intro i
          simpa using h (i + 1)
      simp [h0, this]

theorem xor_strings_comm (a b : Bytes) : xor_strings a b = xor_strings b a := by
  apply bytes_ext
  · simp [Nat.max_comm]
  · intro i
    rw [getD_xor_strings, getD_xor_strings, Nat.xor_comm]

theorem xor_strings_assoc (a b c : Bytes) :
    xor_strings (xor_strings a b) c = xor_strings a (xor_strings b c) := by
  apply bytes_ext
  · simp [Nat.max_assoc]
  · intro i
    rw [getD_xor_strings, getD_xor_strings, getD_xor_strings, getD_xor_strings,
      Nat.xor_assoc]

/-- Right zero-padding of a byte string to length `L`. -/
def padRight (c : Bytes) (L : Nat) : Bytes := c ++ List.replicate (L - c.length) 0

@[simp] theorem length_padRight (c : Bytes) (L : Nat) (h : c.length ≤ L) :
    (padRight c L).length = L := by
  simp [padRight]; omega

theorem getD_padRight (c : Bytes) (L i : Nat) :
    (padRight c L).getD i 0 = c.getD i 0 := by
  by_cases h : i < c.length
  · exact List.getD_append _ _ _ _ h
  · push_neg at h
    rw [List.getD_eq_default _ _ h, padRight, List.getD_append_right _ _ _ _ h]
    simp [List.getD]

@[simp] theorem padRight_self (c : Bytes) : padRight c c.length = c := by
  simp [padRight]

/-- Length of the longest byte string in a list (0 for the empty list). -/
def maxLen (cs : List Bytes) : Nat := cs.foldr (fun c m => max c.length m) 0

theorem length_le_maxLen {c : Bytes} {cs : List Bytes} (h : c ∈ cs) :
    c.length ≤ maxLen cs := by
  induction cs with
  | nil => cases h
  | cons d ds ih =>
    rcases List.mem_cons.mp h with h | h
    · subst h; simp [maxLen]
    · calc c.length ≤ maxLen ds := ih h
        _ ≤ maxLen (d :: ds) := by simp [maxLen]

theorem maxLen_eraseIdx_le (cs : List Bytes) (m : Nat) :
    maxLen (cs.eraseIdx m) ≤ maxLen cs := by
  induction cs generalizing m with
  | nil => simp [List.eraseIdx]
  | cons d ds ih =>
    cases m with
    | zero => simp [List.eraseIdx, maxLen]
    | succ k =>
      have := ih k
      simp only [List.eraseIdx, maxLen, List.foldr] at *
      omega

theorem length_foldl_xor (l : List Bytes) (init : Bytes) :
    (l.foldl xor_strings init).length = max init.length (maxLen l) := by
  induction l generalizing init with
  | nil => simp [maxLen]
  | cons c cs ih =>
    simp only [List.foldl, ih, length_xor_strings, maxLen, List.foldr]
    omega

theorem getD_foldl_xor (l : List Bytes) (init : Bytes) (i : Nat) :
    (l.foldl xor_strings init).getD i 0 =
      (l.map (fun c => c.getD i 0)).foldl (· ^^^ ·) (init.getD i 0) := by
  induction l generalizing init with
  | nil => simp
  | cons c cs ih =>
    simp only [List.foldl, List.map]
    rw [ih (xor_strings init c), getD_xor_strings]

theorem foldl_xor_nat (l : List Nat) (init : Nat) :
    l.foldl (· ^^^ ·) init = init ^^^ l.foldl (· ^^^ ·) 0 := by
  induction l generalizing init with
  | nil => simp
  | cons x xs ih =>
    simp only [List.foldl]
    rw [ih (init ^^^ x), ih (0 ^^^ x), Nat.zero_xor, Nat.xor_assoc]

theorem xor_left_comm (a b c : Nat) : a ^^^ (b ^^^ c) = b ^^^ (a ^^^ c) := by
  rw [← Nat.xor_assoc, Nat.xor_comm a b, Nat.xor_assoc]

theorem foldl_xor_nat_eraseIdx (l : List Nat) (m : Nat) (hm : m < l.length) :
    l.foldl (· ^^^ ·) 0 = l[m] ^^^ (l.eraseIdx m).foldl (· ^^^ ·) 0 := by
  induction l generalizing m with
  | nil => simp at hm
  | cons x xs ih =>
    cases m with
    | zero =>
      simp only [List.foldl, List.eraseIdx, List.getElem_cons_zero, Nat.zero_xor]
      rw [foldl_xor_nat]
    | succ k =>
      have hk : k < xs.length := by simpa using hm
      simp only [List.foldl, List.eraseIdx, List.getElem_cons_succ, Nat.zero_xor]
      rw [foldl_xor_nat xs x, foldl_xor_nat (xs.eraseIdx k) x, ih k hk,
        xor_left_comm]

theorem map_eraseIdx {α β : Type} (f : α → β) (l : List α) (m : Nat) :
    (l.eraseIdx m).map f = (l.map f).eraseIdx m := by
  induction l generalizing m with
  | nil => simp [List.eraseIdx]
  | cons x xs ih => cases m <;> simp [List.eraseIdx, ih]

/-- XORing all blocks of a group except the one at index `m` into the group's
parity (the left fold of `xor_strings` over the whole group) recovers the
block at `m`, zero-padded on the right to the longest block of the group. -/
theorem xor_reconstruction (cs : List Bytes) (m : Nat) (hm : m < cs.length) :
    (cs.eraseIdx m).foldl xor_strings (cs.foldl xor_strings []) =
      padRight cs[m] (maxLen cs) := by
  have hmem : cs[m] ∈ cs := List.getElem_mem hm
  have hlen_le : cs[m].length ≤ maxLen cs := length_le_maxLen hmem
  apply bytes_ext
  · rw [length_foldl_xor, length_foldl_xor, length_padRight _ _ hlen_le]
    have := maxLen_eraseIdx_le cs m
    simp only [List.length_nil]
    omega
  · intro i
    rw [getD_foldl_xor, getD_foldl_xor, getD_padRight, List.getD_nil,
      map_eraseIdx]
    have hm2 : m < (cs.map (fun c => c.getD i 0)).length := by simpa using hm
    rw [foldl_xor_nat ((cs.map (fun c => c.getD i 0)).eraseIdx m),
      foldl_xor_nat_eraseIdx _ m hm2, Nat.xor_assoc, Nat.xor_self, Nat.xor_zero,
      List.getElem_map]

/-! ## The `Validator` accumulator (`src/server/distribute.py` lines 13-55)

`Validator.update` XORs the block into the running parity (the first block
initializes it) and records the block's digest under its number;
`Validator.get_data` packages `{hashes, xor}` as the metadata payload. -/

/-- Python dict assignment `m[k] = v`: replace the value if the key is
present, otherwise append the binding. -/
def dinsert {α : Type} (m : List (Nat × α)) (k : Nat) (v : α) : List (Nat × α) :=
  if m.any (fun p => p.1 == k) then
    m.map (fun p => if p.1 == k then (k, v) else p)
  else m ++ [(k, v)]

/-- Python dict lookup `m[k]` (as an `Option`). -/
def dlookup {α : Type} (m : List (Nat × α)) (k : Nat) : Option α :=
  (m.find? (fun p => p.1 == k)).map (·.2)

structure Validator where
  data : Option Bytes
  blocks : List (Nat × Bytes)
deriving Repr, DecidableEq

def Validator.init : Validator := ⟨none, []⟩

def Validator.update (hashFn : Bytes → Bytes) (v : Validator)
    (block_data : Bytes) (number : Nat) : Validator :=
  { data := match v.data with
      | none => some block_data
      | some d => some (xor_strings d block_data),
    blocks := dinsert v.blocks number (hashFn block_data) }

/-- The parity accumulated by a `Validator` over a list of blocks (the
numbers do not influence the parity). -/
def validator_xor (cs : List Bytes) : Option Bytes :=
  cs.foldl (fun a c => match a with
    | none => some c
    | some d => some (xor_strings d c)) none

theorem validator_xor_some (cs : List Bytes) (d : Bytes) :
    cs.foldl (fun a c => match a with
      | none => some c
      | some d => some (xor_strings d c)) (some d) =
      some (cs.foldl xor_strings d) := by
  induction cs generalizing d with
  | nil => rfl
  | cons c rest ih => simp only [List.foldl]; rw [ih]

theorem validator_xor_getD (cs : List Bytes) :
    (validator_xor cs).getD [] = cs.foldl xor_strings [] := by
  cases cs with
  | nil => rfl
  | cons c rest =>
    simp only [validator_xor, List.foldl]
    rw [validator_xor_some, Option.getD_some, xor_strings_nil_left]

/-! ## Metadata payload codec

`protocol.build` / `protocol.parse` (`src/client/protocol/__init__.py`, the
same module is used by the server) serialize the metadata map
`{hashes: {number → digest}, xor: bytes-or-None}` with msgpack and compress
with zlib.  The engines rely on exactly one property of that serializer:
parsing a built payload returns the original map, and parsing arbitrary other
bytes either fails or returns something and is checked for being a map.  We
model it by a concrete injective length-prefixed codec. -/

structure MetaVal where
  hashes : List (Nat × Bytes)
  xr : Option Bytes
deriving Repr, DecidableEq

def encodeChunk (c : Bytes) : List Nat := c.length :: c

def encodeHashes : List (Nat × Bytes) → List Nat
  | [] => []
  | (n, d) :: rest => n :: (encodeChunk d ++ encodeHashes rest)

def encodeMeta (m : MetaVal) : Bytes :=
  m.hashes.length :: (encodeHashes m.hashes ++
    match m.xr with
    | none => [0]
    | some c => 1 :: encodeChunk c)

def decodeChunk : List Nat → Option (Bytes × List Nat)
  | [] => none
  | n :: rest => if n ≤ rest.length then some (rest.take n, rest.drop n) else none

def decodeHashes : Nat → List Nat → Option (List (Nat × Bytes) × List Nat)
  | 0, rest => some ([], rest)
  | _ + 1, [] => none
  | k + 1, n :: rest =>
    match decodeChunk rest with
    | none => none
    | some (d, r) =>
      match decodeHashes k r with
      | none => none
      | some (hs, r2) => some ((n, d) :: hs, r2)

def decodeMeta (c : Bytes) : Option MetaVal :=
  match c with
  | [] => none
  | k :: rest =>
    match decodeHashes k rest with
    | none => none
    | some (hs, r) =>
      match r with
      | [0] => some ⟨hs, none⟩
      | 1 :: r2 =>
        match decodeChunk r2 with
        | none => none
        | some (x, r3) => if r3 = [] then some ⟨hs, some x⟩ else none
      | _ => none

theorem decodeChunk_encodeChunk (c : Bytes) (r : List Nat) :
    decodeChunk (encodeChunk c ++ r) = some (c, r) := by
  simp [decodeChunk, encodeChunk, List.take_left, List.drop_left]

theorem decodeHashes_encodeHashes (hs : List (Nat × Bytes)) (r : List Nat) :
    decodeHashes hs.length (encodeHashes hs ++ r) = some (hs, r) := by
  induction hs generalizing r with
  | nil => simp [decodeHashes, encodeHashes]
  | cons p rest ih =>
    obtain ⟨n, d⟩ := p
    simp only [encodeHashes, List.length_cons, List.cons_append, List.append_assoc]
    rw [decodeHashes, decodeChunk_encodeChunk]
    simp [ih]

theorem decodeMeta_encodeMeta (m : MetaVal) : decodeMeta (encodeMeta m) = some m := by
  obtain ⟨hs, xr⟩ := m
  cases xr with
  | none =>
    simp only [encodeMeta, decodeMeta]
    rw [decodeHashes_encodeHashes]
  | some x =>
    simp only [encodeMeta, decodeMeta]
    rw [decodeHashes_encodeHashes]
    have : decodeChunk (encodeChunk x) = some (x, []) := by
      simpa using decodeChunk_encodeChunk x []
    simp [this]

/-! ## Encryption (`src/server/encrypt.py` lines 53-96)

`encrypt`/`decrypt` run AES-256-CTR (pyaes `AESModeOfOperationCTR`, implicit
zero initial counter) with the key digest.  CTR mode XORs the plaintext with
the AES keystream, so both directions are the same keystream XOR; the
keystream bytes derived from the per-file key are abstracted as `ks`. -/

def ctr (ks : Nat → Nat) : Nat → Bytes → Bytes
  | _, [] => []
  | i, b :: rest => (b ^^^ ks i) :: ctr ks (i + 1) rest

def encrypt (ks : Nat → Nat) (value : Bytes) : Bytes := ctr ks 0 value

def decrypt (ks : Nat → Nat) (value : Bytes) : Bytes := ctr ks 0 value

theorem ctr_ctr (ks : Nat → Nat) (i : Nat) (c : Bytes) :
    ctr ks i (ctr ks i c) = c := by
  induction c generalizing i with
  | nil => simp [ctr]
  | cons b rest ih =>
    simp [ctr, ih, Nat.xor_assoc, Nat.xor_self, Nat.xor_zero]

@[simp] theorem decrypt_encrypt (ks : Nat → Nat) (v : Bytes) :
    decrypt ks (encrypt ks v) = v := ctr_ctr ks 0 v

/-! ## Blocks and the distribute engine (`src/server/distribute.py`)

A sent or stored block is identified by `(client, block_type, number)` for a
fixed file name; the on-peer file name `{name}_{number}.{block_type}`
determines this key bijectively.  Clients are modelled by their index in the
`clients` list. -/

inductive BType
  | data
  | metadata
deriving Repr, DecidableEq

structure Blk where
  client : Nat
  block_type : BType
  number : Nat
  content : Bytes
deriving Repr, DecidableEq

/-- Splitting a file into blocks of `bs` bytes, as the sequential
`target_file.read(block_size)` loop does (the loop ends on an empty read).
The `fuel` argument only bounds the structural recursion; it starts at the
file length and is never exhausted, since each step consumes at least one
byte. -/
def chunkifyF : Nat → Nat → Bytes → List Bytes
  | 0, _, _ => []
  | _ + 1, _, [] => []
  | fuel + 1, bs, x :: xs => (x :: xs.take (bs - 1)) :: chunkifyF fuel bs (xs.drop (bs - 1))

def chunkify (bs : Nat) (f : Bytes) : List Bytes := chunkifyF f.length bs f

/-- The block count as computed in `DistributeThread.run` and
`LogicThread.distribute`: `file_size / block_size`, plus one if there is a
remainder. -/
def block_number (file_size bs : Nat) : Nat :=
  file_size / bs + if file_size % bs ≠ 0 then 1 else 0

/-- The loop state of `DistributeThread.run` (lines 190-197). -/
structure DState where
  count : Nat
  validation_count : Nat
  data_client_pointer : Nat
  metadata_client_pointer : Nat
  validator : Validator
deriving Repr, DecidableEq

/-- The inner duplication loop (lines 242-254): `D` sends of the data block
to consecutive clients, advancing and wrapping `data_client_pointer`. -/
def dupSends (ks : Nat → Nat) (P number : Nat) (content : Bytes) :
    Nat → Nat → (List Blk × Nat)
  | 0, ptr => ([], ptr)
  | i + 1, ptr =>
    let msg : Blk := ⟨ptr, .data, number, encrypt ks content⟩
    let ptr2 := if ptr + 1 ≥ P then 0 else ptr + 1
    let r := dupSends ks P number content i ptr2
    (msg :: r.1, r.2)

/-- The main loop of `DistributeThread.run` (lines 199-256), reading chunk by
chunk: update the validator; when `count % validation_level == 0` send the
metadata block — to `clients[data_client_pointer]`, as the source does, while
incrementing the separate `metadata_client_pointer` — then reset the
validator; wrap `metadata_client_pointer`; send the `D` duplicates of the
data block. -/
def dist_loop (ks : Nat → Nat) (hashFn : Bytes → Bytes) (D V P : Nat) :
    List Bytes → DState → (List Blk × DState)
  | [], s => ([], s)
  | c :: rest, s =>
    let s1 : DState := { s with validator := s.validator.update hashFn c s.count }
    let step : List Blk × DState :=
      if s1.count % V == 0 then
        ([⟨s1.data_client_pointer, .metadata, s1.validation_count,
            encrypt ks (encodeMeta ⟨s1.validator.blocks, s1.validator.data⟩)⟩],
         { s1 with validator := Validator.init,
                   metadata_client_pointer := s1.metadata_client_pointer + 1,
                   validation_count := s1.validation_count + 1 })
      else ([], s1)
    let s2 := step.2
    let s3 := { s2 with metadata_client_pointer :=
        if s2.metadata_client_pointer ≥ P then 0 else s2.metadata_client_pointer }
    let d := dupSends ks P s3.count c D s3.data_client_pointer
    let s4 := { s3 with data_client_pointer := d.2, count := s3.count + 1 }
    let r := dist_loop ks hashFn D V P rest s4
    (step.1 ++ d.1 ++ r.1, r.2)

/-- Events a task thread sends to the logic thread. -/
inductive Ev
  | error
  | thread_exit (success : Bool)
deriving Repr, DecidableEq

structure DistOut where
  events : List Ev
  sends : List Blk
deriving Repr, DecidableEq

/-- `DistributeThread.run` (lines 156-272).  `file = none` models a missing
input path: the thread emits an `error` event and then calls
`self.exit_thread()` — whose `success` parameter DEFAULTS TO `True`
(line 144) — so the exit event carries `success = true`.  Otherwise the file
is chunked and distributed, and a trailing metadata block is sent exactly
when `file_size % block_size != 0` (line 259). -/
def distribute_run (ks : Nat → Nat) (hashFn : Bytes → Bytes)
    (file : Option Bytes) (bs D V P : Nat) : DistOut :=
  match file with
  | none => ⟨[Ev.error, Ev.thread_exit true], []⟩
  | some f =>
    let r := dist_loop ks hashFn D V P (chunkify bs f) ⟨1, 1, 0, 0, Validator.init⟩
    let sF := r.2
    let trailing : List Blk :=
      if f.length % bs ≠ 0 then
        [⟨sF.metadata_client_pointer, .metadata, sF.validation_count,
          encrypt ks (encodeMeta ⟨sF.validator.blocks, sF.validator.data⟩)⟩]
      else []
    ⟨[Ev.thread_exit true], r.1 ++ trailing⟩

/-! ## Restore engine (`src/server/restore.py`)

Phase A (lines 192-218) is modelled by its resulting staged-file state: every
healthy peer answers `ask_block` with every block it stores, and
`received_block` decrypts each one and writes it to
`{temp}/{client}/{name}_{number}.{block_type}`, overwriting per path.  A
staged file is identified by `(client, block_type, number)`. -/

def sameKey (a b : Blk) : Bool :=
  a.client == b.client && a.block_type == b.block_type && a.number == b.number

/-- Writing a block file: overwrite the entry with the same path, else create
a new one. -/
def upsert (l : List Blk) (b : Blk) : List Blk :=
  if l.any (sameKey b) then l.map (fun x => if sameKey b x then b else x)
  else l ++ [b]

/-- The staged state after collecting from healthy peers: each sent block is
stored by its target peer, returned unmodified, decrypted and staged. -/
def stage_blocks (ks : Nat → Nat) (sends : List Blk) : List Blk :=
  sends.foldl (fun acc s => upsert acc { s with content := decrypt ks s.content }) []

/-- `get_blocks_names(block_type=DATA_BLOCK, number=n)`: all staged data
blocks numbered `n`, across client directories. -/
def get_data_blocks (staged : List Blk) (n : Nat) : List Blk :=
  staged.filter (fun s => s.block_type == BType.data && s.number == n)

/-- `get_blocks_names(block_type=METADATA_BLOCK)`. -/
def get_meta_blocks (staged : List Blk) : List Blk :=
  staged.filter (fun s => s.block_type == BType.metadata)

/-- Lines 222-229: the glob loop repeatedly assigns
`mapping[number] = {'path': path, …}`, so the last match wins. -/
def meta_path_of (staged : List Blk) (g : Nat) : Option Blk :=
  ((get_meta_blocks staged).filter (fun s => s.number == g)).getLast?

/-- The expected data-block numbers of parity group `g`
(lines 236-242): `start = 1 + V·(g-1)`, `end = V·g`, capped at `N`. -/
def group_range (V N g : Nat) : List Nat :=
  (List.range' (1 + V * (g - 1)) V).filter (fun d => d ≤ N)

/-- Deduplication keeping first occurrences (Python dict key insertion
order). -/
def firstDedup : List Nat → List Nat
  | [] => []
  | x :: xs => x :: (firstDedup xs).filter (fun y => y != x)

/-- The keys of the phase-B `mapping` dict: metadata numbers found by the
glob (lines 222-229), then the groups `1..validation_number` not yet present
(lines 232-234).  `validation_number = ceil(N / V)` is computed by the same
formula as `block_number` (lines 70-73). -/
def group_keys (staged : List Blk) (N V : Nat) : List Nat :=
  let found := firstDedup ((get_meta_blocks staged).map (·.number))
  found ++ (List.range' 1 (block_number N V)).filter (fun g => !found.contains g)

structure GroupEntry where
  gnum : Nat
  path : Option Blk
  blocks : List (Nat × List Blk)
deriving Repr, DecidableEq

/-- Phase B: the `mapping` dict.  Candidate lists are filled only for groups
`1..validation_number` (lines 232-244); stray metadata numbers keep an empty
`blocks` dict. -/
def build_mapping (staged : List Blk) (N V : Nat) : List GroupEntry :=
  (group_keys staged N V).map (fun g =>
    { gnum := g,
      path := meta_path_of staged g,
      blocks := if 1 ≤ g ∧ g ≤ block_number N V then
          (group_range V N g).map (fun d => (d, get_data_blocks staged d))
        else [] })

/-- Python's `set(content)` on the list of `(path, bytes)` pairs, modelled as
first-occurrence deduplication.  (CPython's set iteration order is
hash-dependent; any order makes the subsequent `max` order-dependent, because
the pairs are pairwise distinct.) -/
def pySet {α : Type} [DecidableEq α] : List α → List α
  | [] => []
  | x :: xs => x :: (pySet xs).filter (fun y => decide (y ≠ x))

/-- `list.count` of an element. -/
def pyCount {α : Type} [DecidableEq α] (l : List α) (x : α) : Nat :=
  (l.filter (fun y => decide (y = x))).length

/-- Line 321: `max(set(content), key=content.count)` — the first element of
the set iteration attaining the maximal count of the `(path, bytes)` PAIR in
the candidate list.  (Python's `max` keeps the earlier element on ties.) -/
def max_by_count (l : List Blk) : Option Blk :=
  (pySet l).foldl (fun best x =>
    match best with
    | none => some x
    | some b => if pyCount l x > pyCount l b then some x else best) none

/-- The mutable state of `RestoreThread.run` across phases C and D.
`block_hash` is the function-level Python local of the same name, which is
only reassigned when `hashes` contains the block number and is otherwise
STALE; `crashed` models an uncaught exception (`NameError` on the first use
of the unassigned `block_hash`, `KeyError`, or `TypeError` on a `None` xor):
`handle_except` then swallows it and the thread dies without emitting
anything. -/
structure RState where
  valid_blocks : List (Nat × Bytes)
  missing_data : List (Nat × List Nat)
  missing_metadata : List Nat
  block_hash : Option Bytes
  crashed : Bool
deriving Repr, DecidableEq

/-- Lines 278-298: validate each expected data block of a group against the
(usable) metadata; the first candidate whose digest matches is accepted. -/
def valid_loop1 (hashFn : Bytes → Bytes) (meta : MetaVal) :
    List (Nat × List Blk) → RState → List Nat → (RState × List Nat)
  | [], st, miss => (st, miss)
  | (d, cands) :: rest, st, miss =>
    let bh : Option Bytes := match dlookup meta.hashes d with
      | some h => some h
      | none => st.block_hash
    let st1 := { st with block_hash := bh }
    match cands with
    | [] => valid_loop1 hashFn meta rest st1 (miss ++ [d])
    | _ :: _ =>
      match bh with
      | none => ({ st1 with crashed := true }, miss)
      | some h =>
        match cands.find? (fun c => hashFn c.content == h) with
        | some c =>
          valid_loop1 hashFn meta rest
            { st1 with valid_blocks := dinsert st1.valid_blocks d c.content } miss
        | none => valid_loop1 hashFn meta rest st1 miss

/-- Lines 305-308: every expected block that ended up neither valid nor
already recorded missing is added to the group's missing list. -/
def valid_loop2 (valid : List (Nat × Bytes)) :
    List (Nat × List Blk) → List Nat → List Nat
  | [], miss => miss
  | (d, _) :: rest, miss =>
    valid_loop2 valid rest
      (if (dlookup valid d).isNone && !miss.contains d then miss ++ [d] else miss)

/-- Lines 313-327: with unusable metadata, accept the `max(set, key=count)`
pick of each non-empty candidate list, keyed by the number parsed from its
file name. -/
def majority_loop :
    List (Nat × List Blk) → RState → List Nat → (RState × List Nat)
  | [], st, miss => (st, miss)
  | (d, cands) :: rest, st, miss =>
    match cands with
    | [] => majority_loop rest st (miss ++ [d])
    | _ :: _ =>
      match max_by_count cands with
      | none => ({ st with crashed := true }, miss)
      | some pick =>
        majority_loop rest
          { st with valid_blocks := dinsert st.valid_blocks pick.number pick.content }
          miss

/-- Phase C for one group (lines 254-331). -/
def process_group (hashFn : Bytes → Bytes) (ge : GroupEntry) (st : RState) :
    RState :=
  if st.crashed then st else
  let metaOpt : Option MetaVal := match ge.path with
    | none => none
    | some p => decodeMeta p.content
  match metaOpt with
  | some meta =>
    let r1 := valid_loop1 hashFn meta ge.blocks st []
    if r1.1.crashed then r1.1 else
    let m2 := valid_loop2 r1.1.valid_blocks ge.blocks r1.2
    { r1.1 with missing_data := r1.1.missing_data ++ [(ge.gnum, m2)] }
  | none =>
    let st1 := { st with missing_metadata := st.missing_metadata ++ [ge.gnum] }
    let r := majority_loop ge.blocks st1 []
    if r.1.crashed then r.1 else
    { r.1 with missing_data := r.1.missing_data ++ [(ge.gnum, r.2)] }

/-- Lines 366-370: XOR every surviving block of the group into the parity. -/
def repair_fold (valid : List (Nat × Bytes)) (m : Nat) (acc : Bytes) :
    List Nat → Option Bytes
  | [] => some acc
  | d :: rest =>
    if d == m then repair_fold valid m acc rest
    else match dlookup valid d with
      | none => none
      | some c => repair_fold valid m (xor_strings acc c) rest

/-- Phase D (lines 338-392): per group, more than one missing block (or one
missing block with unusable metadata) means the file is corrupted (`break`);
exactly one missing block with usable metadata is rebuilt from the parity and
accepted only if its digest matches, the rebuilt block being written to a
path directly under `temp` (line 381).  Returns the state, the `corrupted`
flag and the numbers of blocks written during repair. -/
def phaseD (hashFn : Bytes → Bytes) (V N : Nat) :
    List GroupEntry → RState → List Nat → (RState × Bool × List Nat)
  | [], st, repaired => (st, false, repaired)
  | ge :: rest, st, repaired =>
    let m := (dlookup st.missing_data ge.gnum).getD []
    if m.length > 1 then (st, true, repaired)
    else if m.length == 1 then
      if st.missing_metadata.contains ge.gnum then (st, true, repaired)
      else
        match ge.path with
        | none => ({ st with crashed := true }, false, repaired)
        | some p =>
          match decodeMeta p.content with
          | none => ({ st with crashed := true }, false, repaired)
          | some meta =>
            let missing_block := m.getD 0 0
            match meta.xr with
            | none => ({ st with crashed := true }, false, repaired)
            | some x0 =>
              match repair_fold st.valid_blocks missing_block x0
                  (group_range V N ge.gnum) with
              | none => ({ st with crashed := true }, false, repaired)
              | some restored =>
                match dlookup meta.hashes missing_block with
                | none => ({ st with crashed := true }, false, repaired)
                | some mh =>
                  if hashFn restored == mh then
                    phaseD hashFn V N rest
                      { st with valid_blocks :=
                          dinsert st.valid_blocks missing_block restored }
                      (repaired ++ [missing_block])
                  else (st, true, repaired)
    else phaseD hashFn V N rest st repaired

/-- Phase E assembly (lines 395-402): concatenate `valid_blocks[1..N]`;
a missing key is a `KeyError` (crash). -/
def assemble (valid : List (Nat × Bytes)) (N : Nat) : Option Bytes :=
  (List.range' 1 N).foldl (fun acc n =>
    match acc, dlookup valid n with
    | some a, some c => some (a ++ c)
    | _, _ => none) (some [])

structure RestoreResult where
  crashed : Bool
  corrupted : Bool
  written : Option Bytes
  success : Bool
  error_emitted : Bool
  repaired : List Nat
deriving Repr, DecidableEq

/-- `RestoreThread.run` phases B-E over the staged state (`N` and `V` come
from the file's metadata-store record).  On corruption the thread emits an
`error` and `thread_exit success=false` and writes nothing; on success it
writes the assembled bytes and emits `thread_exit success=true`; on an
uncaught exception (`crashed`) `handle_except` logs it and the thread emits
nothing at all. -/
def restore_run (hashFn : Bytes → Bytes) (N V : Nat) (staged : List Blk) :
    RestoreResult :=
  let entries := build_mapping staged N V
  let st0 : RState := ⟨[], [], [], none, false⟩
  let stC := entries.foldl (fun st ge => process_group hashFn ge st) st0
  if stC.crashed then ⟨true, false, none, false, false, []⟩ else
  let r := phaseD hashFn V N entries stC []
  if r.1.crashed then ⟨true, false, none, false, false, r.2.2⟩ else
  if r.2.1 then ⟨false, true, none, false, true, r.2.2⟩ else
  match assemble r.1.valid_blocks N with
  | none => ⟨true, false, none, false, false, r.2.2⟩
  | some f => ⟨false, false, some f, true, false, r.2.2⟩

/-! ## Temp-file bookkeeping (`RestoreThread.exit_thread`, lines 138-145)

`exit_thread` removes `get_blocks_names()` = the glob
`{temp}/*/{name}_*.{*}`, whose `*` path component only matches files inside a
client subdirectory.  A block written during XOR repair lives at
`{temp}/{name}_{number}.data` (line 381), directly under `temp`, and is not
matched. -/

inductive TFile
  | clientBlock (client : Nat) (block_type : BType) (number : Nat)
  | rootBlock (number : Nat)
deriving Repr, DecidableEq

def temp_files (staged : List Blk) (repaired : List Nat) : List TFile :=
  staged.map (fun s => TFile.clientBlock s.client s.block_type s.number) ++
    repaired.map TFile.rootBlock

/-- Whether the glob pattern `{temp}/*/{name}_*.{*}` used by
`get_blocks_names` matches a temp file: it requires one intermediate (client)
path component. -/
def matches_client_glob : TFile → Bool
  | TFile.clientBlock _ _ _ => true
  | TFile.rootBlock _ => false

/-- The temp files surviving `exit_thread`'s `map(os.remove,
self.get_blocks_names())`. -/
def exit_thread_cleanup (files : List TFile) : List TFile :=
  files.filter (fun f => !matches_client_glob f)

/-! ## Metadata store (`src/server/database.py`)

The schema is `CREATE TABLE IF NOT EXISTS files (NAME TEXT, FILE_SIZE INT,
BLOCK_NUMBER INT, DUPLICATION_LEVEL INT, VALIDATION_LEVEL INT, KEY BLOB)` —
note: NO `UNIQUE` constraint on `NAME`.  Rows are modelled in rowid
(insertion) order. -/

structure FileRecord where
  name : String
  file_size : Nat
  block_number : Nat
  duplication_level : Nat
  validation_level : Nat
  key : Bytes
deriving Repr, DecidableEq

namespace Database

/-- `INSERT INTO files VALUES (...)`: appends unconditionally. -/
def insert (db : List FileRecord) (r : FileRecord) : List FileRecord := db ++ [r]

/-- `SELECT * FROM files WHERE NAME=?` with `fetchone()`. -/
def query (db : List FileRecord) (file_name : String) : Option FileRecord :=
  db.find? (fun r => r.name == file_name)

/-- `DELETE FROM files WHERE NAME=?`. -/
def delete (db : List FileRecord) (file_name : String) : List FileRecord :=
  db.filter (fun r => r.name != file_name)

end Database

/-- The property claimed of the metadata store, from the spec's words: no two
rows share a NAME. -/
def names_unique (db : List FileRecord) : Prop := (db.map (·.name)).Nodup

instance (db : List FileRecord) : Decidable (names_unique db) := by
  unfold names_unique; infer_instance

/-- `LogicThread.thread_exit` (`src/server/logic.py` lines 454-494), the
distribute case: on `success` the record is inserted into the metadata store
(with no existence check); on failure a `delete` for the name is
self-issued. -/
def logic_thread_exit (db : List FileRecord) (rec : FileRecord)
    (success : Bool) : List FileRecord :=
  if success then Database.insert db rec else Database.delete db rec.name

/-- The only duplicate-name guard in the source: the GUI's
`ok_button_callback` (`src/server/gui.py` lines 487-510) scans its
`file_store` rows and refuses (displaying 'The file already exists in the
storage.') when the chosen basename is present.  `LogicThread.distribute`
(lines 177-222) itself performs no such check. -/
def gui_can_distribute (file_store : List String) (chosen : String) : Bool :=
  file_store.foldl (fun can i => if i == chosen then false else can) true

/-- Helper for counting sent messages of a block type. -/
def count_blocks (out : List Blk) (bt : BType) : Nat :=
  (out.filter (fun b => b.block_type == bt)).length

/-- A fixed concrete keystream (all-zero) for witnesses and
counterexamples. -/
def ksZero : Nat → Nat := fun _ => 0

/-- A concrete digest function for witnesses and counterexamples: the
identity, which is injective — distinct contents get distinct digests, as
with SHA-256 in practice (a collision would break SHA-256). -/
def hashId : Bytes → Bytes := fun c => c

/-! ## Claim theorems -/

/-- C10: `xor_strings` (the spec's `xor_pad`, operands right-zero-padded to
the longest) is associative and commutative, and XORing a parity group's
parity (the `Validator`'s accumulated xor) with all the other blocks of the
group yields the remaining block, zero-padded consistently (to the length of
the longest block of the group). -/
theorem xor_pad_symmetry_and_reconstruction :
    (∀ a b c : Bytes, xor_strings (xor_strings a b) c = xor_strings a (xor_strings b c)) ∧
    (∀ a b : Bytes, xor_strings a b = xor_strings b a) ∧
    (∀ (cs : List Bytes) (m : Fin cs.length),
      (cs.eraseIdx m.val).foldl xor_strings ((validator_xor cs).getD []) =
        padRight (cs.get m) (maxLen cs)) := by
  refine ⟨xor_strings_assoc, xor_strings_comm, fun cs m => ?_⟩
  rw [validator_xor_getD]
  simpa using xor_reconstruction cs m.val m.isLt

/-- C3 (code bug): the claim states that a completed distribute run sends
exactly `block_number · D` DATA messages and `ceil(block_number / V)`
METADATA messages.  The data count holds, but the trailing-metadata
condition in the source is `file_size % block_size != 0` (line 259) instead
of `block_number % validation_level != 0` (its own comment says `if the last
blocks aren't validated, create validation block`), so: for a 4-byte file
with `block_size = 2` (`block_number = 2`), `V = 3`, `D = 1`, NO metadata
message is sent although `ceil(2/3) = 1` — the last group's metadata is
silently never created; and for a 3-byte file with `block_size = 2`, `V = 2`,
TWO metadata messages are sent although `ceil(2/2) = 1` — the extra one has
an empty hash map and a `None` xor. -/
theorem distribute_metadata_count_deviates :
    count_blocks (distribute_run ksZero hashId (some [9, 9, 9, 9]) 2 1 3 1).sends BType.metadata = 0 ∧
    (block_number 4 2 + 3 - 1) / 3 = 1 ∧
    count_blocks (distribute_run ksZero hashId (some [9, 9, 9]) 2 1 2 1).sends BType.metadata = 2 ∧
    (block_number 3 2 + 2 - 1) / 2 = 1 ∧
    count_blocks (distribute_run ksZero hashId (some [9, 9, 9, 9]) 2 1 3 1).sends BType.data =
      block_number 4 2 * 1 := by decide

/-- C4 (code bug): the claim states METADATA group `g` is sent to
`peers[(g-1) mod P]`.  The in-loop metadata send (line 227) actually uses
`clients[data_client_pointer]` while incrementing the separate, there-unused
`metadata_client_pointer` (line 236).  For a 4-byte file, `block_size = 2`,
`V = 2`, `D = 1`, `P = 2`: group 1's metadata goes to peer index 1, not
`(1-1) mod 2 = 0`.  The DATA half of the claim does hold on this input:
duplicate assignments are `[0, 1]` as `((n-1)·D + i) mod P` predicts. -/
theorem distribute_metadata_client_deviates :
    ((distribute_run ksZero hashId (some [9, 9, 9, 9]) 2 1 2 2).sends.filter
        (fun b => b.block_type == BType.metadata)).map (·.client) = [1] ∧
    (1 - 1) % 2 = 0 ∧
    ((distribute_run ksZero hashId (some [9, 9, 9, 9]) 2 1 2 2).sends.filter
        (fun b => b.block_type == BType.data)).map (·.client) = [0, 1] := by decide

/-- C6 (code bug): when the input path does not exist,
`DistributeThread.run` emits the `error` event but then calls
`self.exit_thread()` (line 169) whose `success` parameter defaults to `True`
(line 144), so `thread_exit` carries `success = true` — and on such an exit
`LogicThread.thread_exit` inserts the file record into the metadata store. -/
theorem distribute_missing_file_exits_success :
    (distribute_run ksZero hashId none 4 1 2 1).events = [Ev.error, Ev.thread_exit true] ∧
    logic_thread_exit [] ⟨"f.txt", 0, 0, 1, 2, []⟩ true = [⟨"f.txt", 0, 0, 1, 2, []⟩] :=
  ⟨rfl, rfl⟩

/-- C5 counterexample: the metadata store does NOT preserve name uniqueness.
The table has no UNIQUE constraint and `LogicThread.distribute` performs no
existence check, so two successful distribute exits for the same name insert
two rows with that NAME. -/
theorem duplicate_rows_after_two_distributes :
    ¬ names_unique
      (logic_thread_exit
        (logic_thread_exit [] ⟨"f.txt", 3, 2, 1, 2, [1]⟩ true)
        ⟨"f.txt", 3, 2, 1, 2, [1]⟩ true) := by decide

theorem gui_fold_stays_false (l : List String) (chosen : String) :
    l.foldl (fun can i => if i == chosen then false else can) false = false := by
  induction l with
  | nil => rfl
  | cons x xs ih =>
    cases hx : x == chosen <;> simp only [List.foldl, hx, if_true, if_false] <;>
      exact ih

/-- C5 (amended): the only refusal of a duplicate name happens in the GUI's
upload dialog: when the chosen basename is already listed in the GUI's file
store, `ok_button_callback` sets `can_distribute = False` (displaying
'The file already exists in the storage.') and does not issue the distribute
request. -/
theorem gui_refuses_duplicate (file_store : List String) (chosen : String)
    (h : chosen ∈ file_store) : gui_can_distribute file_store chosen = false := by
  unfold gui_can_distribute
  induction file_store with
  | nil => cases h
  | cons x xs ih =>
    simp only [List.foldl]
    by_cases hx : x = chosen
    · rw [if_pos (beq_iff_eq.mpr hx)]
      exact gui_fold_stays_false xs chosen
    · rw [if_neg (fun hc => hx (beq_iff_eq.mp hc))]
      rcases List.mem_cons.mp h with h1 | h1
      · exact absurd h1.symm hx
      · exact ih h1

/-- Witness for `gui_refuses_duplicate` at a concrete file store. -/
theorem gui_refuses_duplicate_witness :
    ("f.txt" ∈ ["a.bin", "f.txt"]) ∧
      gui_can_distribute ["a.bin", "f.txt"] "f.txt" = false :=
  ⟨by decide, gui_refuses_duplicate ["a.bin", "f.txt"] "f.txt" (by decide)⟩

/-- The candidate list of one data block number across three peers: peer 0
holds content `[2]`, peers 1 and 2 hold content `[1]`. -/
def c7cands : List Blk :=
  [⟨0, BType.data, 5, [2]⟩, ⟨1, BType.data, 5, [1]⟩, ⟨2, BType.data, 5, [1]⟩]

/-- C7 (code bug): `max(set(content), key=content.count)` (line 321) counts
`(path, bytes)` PAIRS, which are pairwise distinct (one path per client
directory), so every count is 1 and the pick is just whichever element set
iteration yields first — here the lone content `[2]` is chosen although
content `[1]` occurs twice.  The last conjunct shows the counting key is
constant over the candidates. -/
theorem majority_vote_ignores_frequency :
    (max_by_count c7cands).map (·.content) = some [2] ∧
    (c7cands.filter (fun b => b.content == [1])).length = 2 ∧
    (c7cands.filter (fun b => b.content == [2])).length = 1 ∧
    c7cands.all (fun b => pyCount c7cands b == 1) = true := by decide

/-- The distribute output for a 3-byte file (`block_size = 2`, `D = 1`,
`V = 2`, one peer) with every copy of data block 1 lost. -/
def c8sends : List Blk :=
  (distribute_run ksZero hashId (some [1, 2, 3]) 2 1 2 1).sends.filter
    (fun b => !(b.block_type == BType.data && b.number == 1))

def c8staged : List Blk := stage_blocks ksZero c8sends

def c8res : RestoreResult := restore_run hashId (block_number 3 2) 2 c8staged

/-- C8 counterexample: a successful restore that XOR-repairs block 1 writes
the rebuilt block directly under `temp` (line 381); `exit_thread`'s cleanup
glob `{temp}/*/{name}_*.{*}` does not match that path, so after
`thread_exit` the repaired block file remains. -/
theorem repaired_block_file_survives_exit :
    c8res.success = true ∧
    exit_thread_cleanup (temp_files c8staged c8res.repaired) = [TFile.rootBlock 1] ∧
    exit_thread_cleanup (temp_files c8staged c8res.repaired) ≠ [] := by decide

/-- C8 (amended): `exit_thread` removes every per-client staged block file;
exactly the block files written during XOR repair (which live at the temp
root) survive the cleanup. -/
theorem exit_cleanup_removes_exactly_client_files (staged : List Blk)
    (repaired : List Nat) :
    exit_thread_cleanup (temp_files staged repaired) =
      repaired.map TFile.rootBlock := by
  unfold exit_thread_cleanup temp_files
  rw [List.filter_append]
  have h1 : (staged.map (fun s => TFile.clientBlock s.client s.block_type s.number)).filter
      (fun f => !matches_client_glob f) = [] := by
    rw [List.filter_eq_nil_iff]
    intro a ha
    rcases List.mem_map.mp ha with ⟨s, _, rfl⟩
    simp [matches_client_glob]
  have h2 : (repaired.map TFile.rootBlock).filter
      (fun f => !matches_client_glob f) = repaired.map TFile.rootBlock := by
    rw [List.filter_eq_self]
    intro a ha
    rcases List.mem_map.mp ha with ⟨n, _, rfl⟩
    simp [matches_client_glob]
  rw [h1, h2, List.nil_append]

/-! ### C9: restore with nothing received -/

/-- The phase-B entry of group `g` when nothing at all was staged. -/
def entryEmpty (N V g : Nat) : GroupEntry :=
  ⟨g, none, (group_range V N g).map (fun d => (d, []))⟩

theorem majority_loop_all_empty (ds : List Nat) (st : RState) (miss : List Nat) :
    majority_loop (ds.map (fun d => (d, []))) st miss = (st, miss ++ ds) := by
  induction ds generalizing miss with
  | nil => simp [majority_loop]
  | cons d rest ih =>
    simp only [List.map, majority_loop, ih, List.append_assoc, List.cons_append,
      List.nil_append]

theorem process_group_empty (hashFn : Bytes → Bytes) (N V g : Nat) (st : RState)
    (hc : st.crashed = false) :
    process_group hashFn (entryEmpty N V g) st =
      { st with missing_metadata := st.missing_metadata ++ [g],
                missing_data := st.missing_data ++ [(g, group_range V N g)] } := by
  unfold process_group entryEmpty
  rw [hc]
  simp only [Bool.false_eq_true, if_false, majority_loop_all_empty, hc,
    List.nil_append]

theorem build_mapping_nil (N V : Nat) :
    build_mapping [] N V =
      (List.range' 1 (block_number N V)).map (entryEmpty N V) := by
  unfold build_mapping
  have hk : group_keys [] N V = List.range' 1 (block_number N V) := by
    simp [group_keys, firstDedup, get_meta_blocks]
  rw [hk]
  apply List.map_congr_left
  intro g hg
  rcases List.mem_range'_1.mp hg with ⟨h1, h2⟩
  have hcond : 1 ≤ g ∧ g ≤ block_number N V := ⟨h1, by omega⟩
  rw [if_pos hcond]
  rfl

theorem phaseC_empty (hashFn : Bytes → Bytes) (N V : Nat) (gs : List Nat)
    (st : RState) (hc : st.crashed = false) :
    (gs.map (entryEmpty N V)).foldl (fun st ge => process_group hashFn ge st) st =
      { st with missing_metadata := st.missing_metadata ++ gs,
                missing_data :=
                  st.missing_data ++ gs.map (fun g => (g, group_range V N g)) } := by
  induction gs generalizing st with
  | nil => simp
  | cons g rest ih =>
    simp only [List.map, List.foldl]
    rw [process_group_empty hashFn N V g st hc, ih _ (by simp [hc])]
    simp

theorem block_number_pos (N V : Nat) (hN : 1 ≤ N) (hV : 1 ≤ V) :
    1 ≤ block_number N V := by
  unfold block_number
  by_cases h0 : N % V = 0
  · have h := Nat.div_add_mod N V
    rcases Nat.eq_zero_or_pos (N / V) with hz | hp
    · rw [hz, Nat.mul_zero, h0] at h
      omega
    · simp [h0]
      omega
  · simp [h0]

theorem dlookup_cons_self {α : Type} (k : Nat) (v : α) (rest : List (Nat × α)) :
    dlookup ((k, v) :: rest) k = some v := by
  unfold dlookup
  rw [List.find?_cons_of_pos _ (by simp)]
  rfl

theorem dlookup_cons_ne {α : Type} (k k2 : Nat) (v : α) (rest : List (Nat × α))
    (h : k2 ≠ k) : dlookup ((k2, v) :: rest) k = dlookup rest k := by
  unfold dlookup
  rw [List.find?_cons_of_neg _ (by simpa using h)]

theorem group_range_first_mem (N V : Nat) (hN : 1 ≤ N) (hV : 1 ≤ V) :
    1 ∈ group_range V N 1 := by
  unfold group_range
  apply List.mem_filter.mpr
  constructor
  · apply List.mem_range'_1.mpr
    omega
  · simpa using hN

/-- C9: a restore invocation that receives no block messages at all (also
with an empty peer list) ends corrupted: it emits an error event, emits
`thread_exit` with `success = false`, writes no destination file, and repairs
nothing. -/
theorem restore_no_blocks_corrupted (hashFn : Bytes → Bytes) (N V : Nat)
    (hN : 1 ≤ N) (hV : 1 ≤ V) :
    restore_run hashFn N V [] =
      ⟨false, true, none, false, true, []⟩ := by
  have hG : 1 ≤ block_number N V := block_number_pos N V hN hV
  have hmem1 : 1 ∈ group_range V N 1 := group_range_first_mem N V hN hV
  have hlen : 1 ≤ (group_range V N 1).length :=
    List.length_pos.mpr (List.ne_nil_of_mem hmem1)
  have hrange : List.range' 1 (block_number N V) =
      1 :: List.range' 2 (block_number N V - 1) := by
    have h2 : block_number N V = (block_number N V - 1) + 1 := by omega
    conv_lhs => rw [h2]
    rw [List.range'_succ]
  simp only [restore_run]
  rw [build_mapping_nil, phaseC_empty hashFn N V _ ⟨[], [], [], none, false⟩ rfl]
  simp only [List.nil_append]
  rw [hrange, List.map_cons, List.map_cons]
  simp only [phaseD, entryEmpty, dlookup_cons_self, Option.getD_some]
  by_cases hgt : (group_range V N 1).length > 1
  · rw [if_pos hgt]
    simp
  · rw [if_neg hgt]
    have h1 : (group_range V N 1).length = 1 := by omega
    rw [h1]
    have hcont : (((1 : Nat) :: List.range' 2 (block_number N V - 1))).contains 1 = true := by
      simp
    simp only [hcont, Nat.reduceBEq, if_true]
    simp

/-- Witness for `restore_no_blocks_corrupted` at `N = 1`, `V = 2`. -/
theorem restore_no_blocks_corrupted_witness :
    (1 ≤ 1 ∧ 1 ≤ 2) ∧
      restore_run hashId 1 2 [] = ⟨false, true, none, false, true, []⟩ :=
  ⟨⟨le_refl 1, by omega⟩, restore_no_blocks_corrupted hashId 1 2 (le_refl 1) (by omega)⟩

/-! ### Association-list lemmas for the Python dict model -/

theorem dlookup_nil {α : Type} (k : Nat) : dlookup ([] : List (Nat × α)) k = none := rfl

theorem dlookup_none_iff {α : Type} (m : List (Nat × α)) (k : Nat) :
    dlookup m k = none ↔ ∀ p ∈ m, p.1 ≠ k := by
  unfold dlookup
  rw [Option.map_eq_none', List.find?_eq_none]
  constructor
  · intro h p hp
    have := h p hp
    simpa using this
  · intro h p hp
    simpa using h p hp

theorem dlookup_append {α : Type} (m1 m2 : List (Nat × α)) (k : Nat) :
    dlookup (m1 ++ m2) k =
      match dlookup m1 k with
      | some v => some v
      | none => dlookup m2 k := by
  induction m1 with
  | nil => simp [dlookup]
  | cons p rest ih =>
    obtain ⟨k1, v1⟩ := p
    by_cases hk : k1 = k
    · subst hk
      rw [List.cons_append, dlookup_cons_self, dlookup_cons_self]
    · rw [List.cons_append, dlookup_cons_ne _ _ _ _ hk, dlookup_cons_ne _ _ _ _ hk, ih]

theorem dinsert_fresh {α : Type} (m : List (Nat × α)) (k : Nat) (v : α)
    (h : dlookup m k = none) : dinsert m k v = m ++ [(k, v)] := by
  unfold dinsert
  rw [if_neg]
  intro hany
  rcases List.any_eq_true.mp hany with ⟨p, hp, hbeq⟩
  exact (dlookup_none_iff m k).mp h p hp (by simpa using hbeq)

theorem dlookup_dinsert_self {α : Type} (m : List (Nat × α)) (k : Nat) (v : α)
    (h : dlookup m k = none) : dlookup (dinsert m k v) k = some v := by
  rw [dinsert_fresh m k v h, dlookup_append, h, dlookup_cons_self]

theorem dlookup_dinsert_ne {α : Type} (m : List (Nat × α)) (k n : Nat) (v : α)
    (h : dlookup m k = none) (hn : n ≠ k) :
    dlookup (dinsert m k v) n = dlookup m n := by
  rw [dinsert_fresh m k v h, dlookup_append]
  cases hm : dlookup m n with
  | some w => rfl
  | none =>
    rw [dlookup_cons_ne _ _ _ _ (fun he => hn he.symm), dlookup_nil]

theorem dlookup_map_self {α : Type} (f : Nat → α) (l : List Nat) (k : Nat)
    (h : k ∈ l) : dlookup (l.map (fun n => (n, f n))) k = some (f k) := by
  induction l with
  | nil => cases h
  | cons x xs ih =>
    by_cases hx : x = k
    · subst hx
      rw [List.map_cons, dlookup_cons_self]
    · rw [List.map_cons, dlookup_cons_ne _ _ _ _ hx]
      rcases List.mem_cons.mp h with h1 | h1
      · exact absurd h1.symm hx
      · exact ih h1

/-! ### Facts about the majority pick and candidate lists -/

theorem pySet_subset {α : Type} [DecidableEq α] (l : List α) :
    ∀ y ∈ pySet l, y ∈ l := by
  induction l with
  | nil => intro y h; cases h
  | cons x xs ih =>
    intro y hy
    rcases List.mem_cons.mp hy with h1 | h1
    · subst h1; exact List.mem_cons_self _ _
    · exact List.mem_cons_of_mem _ (ih y (List.mem_of_mem_filter h1))

theorem max_fold_some (l : List Blk) :
    ∀ (s : List Blk) (b : Blk), b ∈ l → (∀ y ∈ s, y ∈ l) →
      ∃ r, (s.foldl (fun best x =>
        match best with
        | none => some x
        | some b => if pyCount l x > pyCount l b then some x else best) (some b)) = some r ∧
        r ∈ l := by
  intro s
  induction s with
  | nil => intro b hb _; exact ⟨b, rfl, hb⟩
  | cons x xs ih =>
    intro b hb hs
    simp only [List.foldl]
    by_cases hgt : pyCount l x > pyCount l b
    · rw [if_pos hgt]
      exact ih x (hs x (List.mem_cons_self _ _)) (fun y hy => hs y (List.mem_cons_of_mem _ hy))
    · rw [if_neg hgt]
      exact ih b hb (fun y hy => hs y (List.mem_cons_of_mem _ hy))

theorem max_by_count_mem (l : List Blk) (h : l ≠ []) :
    ∃ r, max_by_count l = some r ∧ r ∈ l := by
  unfold max_by_count
  cases hl : l with
  | nil => exact absurd hl h
  | cons c rest =>
    rw [← hl]
    have hps : pySet l = c :: (pySet (rest)).filter (fun y => decide (y ≠ c)) := by
      rw [hl]; rfl
    rw [hps]
    simp only [List.foldl]
    apply max_fold_some
    · rw [hl]; exact List.mem_cons_self _ _
    · intro y hy
      have : y ∈ pySet l := by rw [hps]; exact List.mem_cons_of_mem _ hy
      exact pySet_subset l y this

theorem get_data_blocks_mem (staged : List Blk) (n : Nat) (s : Blk)
    (h : s ∈ get_data_blocks staged n) :
    s ∈ staged ∧ s.block_type = BType.data ∧ s.number = n := by
  unfold get_data_blocks at h
  have h1 := List.mem_filter.mp h
  refine ⟨h1.1, ?_, ?_⟩
  · have := h1.2
    simp only [Bool.and_eq_true, beq_iff_eq] at this
    exact this.1
  · have := h1.2
    simp only [Bool.and_eq_true, beq_iff_eq] at this
    exact this.2

theorem find?_hash_first (hashFn : Bytes → Bytes) (x : Bytes) (cands : List Blk)
    (hall : ∀ c ∈ cands, c.content = x) (hne : cands ≠ []) :
    ∃ c, cands.find? (fun c => hashFn c.content == hashFn x) = some c ∧
      c.content = x := by
  cases cands with
  | nil => exact absurd rfl hne
  | cons c0 rest =>
    have hc0 : c0.content = x := hall c0 (List.mem_cons_self _ _)
    refine ⟨c0, ?_, hc0⟩
    rw [List.find?_cons_of_pos]
    simp [hc0]

/-! ### Chunking lemmas -/

theorem chunkifyF_flatten (bs : Nat) :
    ∀ (fuel : Nat) (l : Bytes), l.length ≤ fuel →
      (chunkifyF fuel bs l).flatten = l := by
  intro fuel
  induction fuel with
  | zero =>
    intro l hl
    have : l = [] := List.eq_nil_of_length_eq_zero (Nat.le_zero.mp hl)
    subst this; rfl
  | succ fuel ih =>
    intro l hl
    cases l with
    | nil => rfl
    | cons x xs =>
      have hl' : xs.length ≤ fuel := by
        simp only [List.length_cons] at hl
        omega
      simp only [chunkifyF, List.flatten_cons]
      rw [ih (xs.drop (bs - 1)) (by rw [List.length_drop]; omega)]
      simp [List.take_append_drop]

theorem chunkify_flatten (bs : Nat) (l : Bytes) : (chunkify bs l).flatten = l :=
  chunkifyF_flatten bs l.length l (le_refl _)

theorem block_number_zero (bs : Nat) : block_number 0 bs = 0 := by
  simp [block_number]

theorem block_number_step (L bs : Nat) (hbs : 1 ≤ bs) (hL : bs ≤ L) :
    block_number L bs = block_number (L - bs) bs + 1 := by
  unfold block_number
  rw [Nat.div_eq_sub_div hbs hL, Nat.mod_eq_sub_mod hL]
  by_cases h : (L - bs) % bs ≠ 0 <;> simp [h] <;> omega

theorem block_number_small (L bs : Nat) (h1 : 1 ≤ L) (h2 : L ≤ bs) :
    block_number L bs = 1 := by
  unfold block_number
  rcases Nat.lt_or_ge L bs with hlt | hge
  · rw [Nat.div_eq_of_lt hlt, Nat.mod_eq_of_lt hlt]
    simp; omega
  · have : L = bs := by omega
    subst this
    rw [Nat.div_self (by omega), Nat.mod_self]
    simp

theorem chunkifyF_length (bs : Nat) (hbs : 1 ≤ bs) :
    ∀ (fuel : Nat) (l : Bytes), l.length ≤ fuel →
      (chunkifyF fuel bs l).length = block_number l.length bs := by
  intro fuel
  induction fuel with
  | zero =>
    intro l hl
    have : l = [] := List.eq_nil_of_length_eq_zero (Nat.le_zero.mp hl)
    subst this
    simp [chunkifyF, block_number]
  | succ fuel ih =>
    intro l hl
    cases l with
    | nil => simp [chunkifyF, block_number]
    | cons x xs =>
      have hl' : xs.length ≤ fuel := by
        simp only [List.length_cons] at hl
        omega
      simp only [chunkifyF, List.length_cons]
      rw [ih (xs.drop (bs - 1)) (by rw [List.length_drop]; omega)]
      rw [List.length_drop]
      rcases Nat.lt_or_ge xs.length (bs - 1) with hsm | hbig
      · have h0 : xs.length - (bs - 1) = 0 := by omega
        rw [h0, block_number_zero, block_number_small _ _ (by omega) (by omega)]
      · have he : xs.length - (bs - 1) = xs.length + 1 - bs := by omega
        rw [he, ← block_number_step _ _ hbs (by omega)]

theorem chunkify_length (bs : Nat) (l : Bytes) (hbs : 1 ≤ bs) :
    (chunkify bs l).length = block_number l.length bs :=
  chunkifyF_length bs hbs l.length l (le_refl _)

theorem chunkifyF_getD (bs : Nat) (hbs : 1 ≤ bs) :
    ∀ (fuel : Nat) (l : Bytes) (i : Nat), l.length ≤ fuel →
      (chunkifyF fuel bs l).getD i [] = (l.drop (i * bs)).take bs := by
  intro fuel
  induction fuel with
  | zero =>
    intro l i hl
    have : l = [] := List.eq_nil_of_length_eq_zero (Nat.le_zero.mp hl)
    subst this
    simp [chunkifyF]
  | succ fuel ih =>
    intro l i hl
    cases l with
    | nil => simp [chunkifyF]
    | cons x xs =>
      have hl' : xs.length ≤ fuel := by
        simp only [List.length_cons] at hl
        omega
      cases i with
      | zero =>
        simp only [chunkifyF, List.getD_cons_zero, Nat.zero_mul, List.drop_zero]
        have hb : bs = (bs - 1) + 1 := by omega
        conv_rhs => rw [hb]
        rw [List.take_succ_cons]
      | succ j =>
        simp only [chunkifyF, List.getD_cons_succ]
        rw [ih (xs.drop (bs - 1)) j (by rw [List.length_drop]; omega)]
        rw [List.drop_drop]
        have harith : (bs - 1) + j * bs = (j + 1) * bs - 1 := by
          rw [Nat.succ_mul]
          omega
        rw [harith]
        have hdrop : (x :: xs).drop ((j + 1) * bs) = xs.drop ((j + 1) * bs - 1) := by
          have : (j + 1) * bs = ((j + 1) * bs - 1) + 1 := by
            rw [Nat.succ_mul]
            omega
          conv_lhs => rw [this]
          rw [List.drop_succ_cons]
        rw [hdrop]

theorem chunkify_getD (bs : Nat) (l : Bytes) (i : Nat) (hbs : 1 ≤ bs) :
    (chunkify bs l).getD i [] = (l.drop (i * bs)).take bs :=
  chunkifyF_getD bs hbs l.length l i (le_refl _)

theorem block_number_le_iff (L bs i : Nat) (hbs : 1 ≤ bs) :
    block_number L bs ≤ i ↔ L ≤ i * bs := by
  unfold block_number
  have hd := Nat.div_add_mod L bs
  have hmlt : L % bs < bs := Nat.mod_lt _ (by omega)
  constructor
  · intro h
    by_cases h0 : L % bs = 0
    · simp [h0] at h
      calc L = bs * (L / bs) := by omega
        _ ≤ bs * i := Nat.mul_le_mul_left bs h
        _ = i * bs := Nat.mul_comm _ _
    · simp [h0] at h
      have : L / bs + 1 ≤ i := h
      calc L = bs * (L / bs) + L % bs := by omega
        _ ≤ bs * (L / bs) + bs := by omega
        _ = bs * (L / bs + 1) := by rw [Nat.mul_succ]
        _ ≤ bs * i := Nat.mul_le_mul_left bs this
        _ = i * bs := Nat.mul_comm _ _
  · intro h
    have hdiv : L / bs ≤ i := by
      calc L / bs ≤ (i * bs) / bs := Nat.div_le_div_right h
        _ = i := Nat.mul_div_cancel _ (by omega)
    by_cases h0 : L % bs = 0
    · simpa [h0] using hdiv
    · simp only [h0, ne_eq, not_false_iff, if_true]
      rcases Nat.lt_or_ge (L / bs) i with hlt | hge
      · omega
      · have heq : L / bs = i := by omega
        rw [heq] at hd
        have : L = bs * i + L % bs := by omega
        rw [Nat.mul_comm] at this
        omega

theorem lt_block_number_mul (L bs i : Nat) (hbs : 1 ≤ bs)
    (h : i < block_number L bs) : i * bs < L := by
  by_contra hc
  push_neg at hc
  exact absurd ((block_number_le_iff L bs i hbs).mpr hc) (by omega)

/-! ### Parity-group specifications -/

/-- The parity group containing 1-based block number `n`. -/
def group_of (V n : Nat) : Nat := (n - 1) / V + 1

def group_chunks (cs : List Bytes) (V g : Nat) : List Bytes :=
  (group_range V cs.length g).map (fun n => cs.getD (n - 1) [])

def group_hashes (hashFn : Bytes → Bytes) (cs : List Bytes) (V g : Nat) :
    List (Nat × Bytes) :=
  (group_range V cs.length g).map (fun n => (n, hashFn (cs.getD (n - 1) [])))

/-- The metadata payload the distribute engine produces for group `g` of the
chunk list `cs`. -/
def group_meta (hashFn : Bytes → Bytes) (cs : List Bytes) (V g : Nat) : MetaVal :=
  ⟨group_hashes hashFn cs V g, validator_xor (group_chunks cs V g)⟩

theorem group_range_mem (V N g n : Nat) :
    n ∈ group_range V N g ↔
      (1 + V * (g - 1) ≤ n ∧ n < 1 + V * (g - 1) + V ∧ n ≤ N) := by
  unfold group_range
  rw [List.mem_filter, List.mem_range'_1]
  simp only [decide_eq_true_eq]
  tauto

theorem group_range_nodup (V N g : Nat) : (group_range V N g).Nodup :=
  List.Nodup.filter _ (List.nodup_range' _ _)

theorem group_of_range (V N g n : Nat) (hV : 1 ≤ V) (hg : 1 ≤ g)
    (h : n ∈ group_range V N g) : group_of V n = g := by
  rcases (group_range_mem V N g n).mp h with ⟨h1, h2, _⟩
  unfold group_of
  have : (n - 1) / V = g - 1 := by
    apply Nat.div_eq_of_lt_le
    · calc (g - 1) * V = V * (g - 1) := Nat.mul_comm _ _
        _ ≤ n - 1 := by omega
    · calc n - 1 < V * (g - 1) + V := by omega
        _ = (g - 1 + 1) * V := by rw [Nat.succ_mul, Nat.mul_comm]
  omega

theorem le_block_number_elim (N V g : Nat) (h : g ≤ block_number N V) :
    (N % V = 0 → g ≤ N / V) ∧ (N % V ≠ 0 → g ≤ N / V + 1) := by
  unfold block_number at h
  by_cases h0 : N % V = 0
  · rw [if_neg (by omega)] at h
    exact ⟨fun _ => by omega, fun hc => absurd h0 hc⟩
  · rw [if_pos h0] at h
    exact ⟨fun hc => absurd hc h0, fun _ => h⟩

theorem group_of_cover (V N n : Nat) (hV : 1 ≤ V) (h1 : 1 ≤ n) (h2 : n ≤ N) :
    1 ≤ group_of V n ∧ group_of V n ≤ block_number N V ∧
      n ∈ group_range V N (group_of V n) := by
  have hd := Nat.div_add_mod (n - 1) V
  have hmlt : (n - 1) % V < V := Nat.mod_lt _ (by omega)
  have hMem : n ∈ group_range V N (group_of V n) := by
    rw [group_range_mem]
    unfold group_of
    simp only [Nat.add_sub_cancel]
    omega
  refine ⟨by unfold group_of; exact Nat.le_add_left 1 _, ?_, hMem⟩
  have hNd := Nat.div_add_mod N V
  unfold block_number group_of
  by_cases h0 : N % V = 0
  · rw [if_neg (by omega)]
    have hlt : V * ((n - 1) / V) < V * (N / V) := by omega
    have := Nat.lt_of_mul_lt_mul_left hlt
    omega
  · rw [if_pos h0]
    have hq2 : (n - 1) / V ≤ N / V := by
      calc (n - 1) / V ≤ (N - 1) / V := Nat.div_le_div_right (by omega)
        _ ≤ N / V := Nat.div_le_div_right (by omega)
    omega

theorem group_range_start_mem (V N g : Nat) (hV : 1 ≤ V) (hg1 : 1 ≤ g)
    (hgG : g ≤ block_number N V) : 1 + V * (g - 1) ∈ group_range V N g := by
  rw [group_range_mem]
  refine ⟨le_refl _, by omega, ?_⟩
  have hNd := Nat.div_add_mod N V
  have helim := le_block_number_elim N V g hgG
  by_cases h0 : N % V = 0
  · have hgle : g ≤ N / V := helim.1 h0
    have hle : V * (g - 1) ≤ V * (N / V - 1) := Nat.mul_le_mul_left V (by omega)
    have hNV : 1 ≤ N / V := by
      rcases Nat.eq_zero_or_pos (N / V) with hz | hp
      · rw [hz] at hgle; omega
      · exact hp
    have h2 : V * (N / V - 1) + V = V * (N / V) := by
      have hh : N / V = (N / V - 1) + 1 := by omega
      conv_rhs => rw [hh]
      rw [Nat.mul_succ]
    omega
  · have hgle : g ≤ N / V + 1 := helim.2 h0
    have hle : V * (g - 1) ≤ V * (N / V) := Nat.mul_le_mul_left V (by omega)
    have hm1 : 1 ≤ N % V := by omega
    omega

theorem group_range_ne_nil (V N g : Nat) (hV : 1 ≤ V) (hg1 : 1 ≤ g)
    (hgG : g ≤ block_number N V) : group_range V N g ≠ [] :=
  List.ne_nil_of_mem (group_range_start_mem V N g hV hg1 hgG)

/-- For a full in-loop group (`g·V ≤ N`) the cap filter keeps everything. -/
theorem group_range_full (V N g : Nat) (hg1 : 1 ≤ g) (h : g * V ≤ N) :
    group_range V N g = List.range' (1 + V * (g - 1)) V := by
  unfold group_range
  apply List.filter_eq_self.mpr
  intro n hn
  rw [List.mem_range'_1] at hn
  have : V * (g - 1) + V = g * V := by
    rw [Nat.mul_comm V (g - 1), ← Nat.succ_mul]
    congr 1
    omega
  simp only [decide_eq_true_eq]
  omega

/-- For the trailing group (`N % V ≠ 0`, `g = N/V + 1`) the cap filter keeps
exactly the window `[V·(N/V)+1 .. N]`. -/
theorem group_range_trailing (V N : Nat) (hV : 1 ≤ V) (h0 : N % V ≠ 0) :
    group_range V N (N / V + 1) = List.range' (V * (N / V) + 1) (N % V) := by
  unfold group_range
  have hNd := Nat.div_add_mod N V
  have hmlt : N % V < V := Nat.mod_lt _ (by omega)
  have hsplit : List.range' (1 + V * (N / V + 1 - 1)) V =
      List.range' (V * (N / V) + 1) (N % V) ++
        List.range' (V * (N / V) + 1 + N % V) (V - N % V) := by
    have h1 : N / V + 1 - 1 = N / V := Nat.add_sub_cancel (N / V) 1
    rw [h1, Nat.add_comm 1 (V * (N / V))]
    have happ := List.range'_append (V * (N / V) + 1) (N % V) (V - N % V) 1
    rw [Nat.one_mul] at happ
    rw [show (V - N % V) + N % V = V from by omega] at happ
    exact happ.symm
  rw [hsplit, List.filter_append]
  have hfirst : (List.range' (V * (N / V) + 1) (N % V)).filter (fun d => decide (d ≤ N)) =
      List.range' (V * (N / V) + 1) (N % V) := by
    apply List.filter_eq_self.mpr
    intro n hn
    rw [List.mem_range'_1] at hn
    simp only [decide_eq_true_eq]
    omega
  have hsecond : (List.range' (V * (N / V) + 1 + N % V) (V - N % V)).filter
      (fun d => decide (d ≤ N)) = [] := by
    apply List.filter_eq_nil_iff.mpr
    intro n hn
    rw [List.mem_range'_1] at hn
    simp only [decide_eq_true_eq]
    omega
  rw [hfirst, hsecond, List.append_nil]

/-! ### The validator window during the distribute loop

After the loop has consumed `k` chunks, the validator covers exactly the
blocks since the last reset: numbers `V·(k/V)+1 .. k` (the last `k % V`
blocks). -/

def window_hashes (hashFn : Bytes → Bytes) (cs : List Bytes) (V k : Nat) :
    List (Nat × Bytes) :=
  (List.range' (V * (k / V) + 1) (k % V)).map (fun n => (n, hashFn (cs.getD (n - 1) [])))

def window_chunks (cs : List Bytes) (V k : Nat) : List Bytes :=
  (List.range' (V * (k / V) + 1) (k % V)).map (fun n => cs.getD (n - 1) [])

theorem validator_xor_append (l : List Bytes) (c : Bytes) :
    validator_xor (l ++ [c]) =
      match validator_xor l with
      | none => some c
      | some d => some (xor_strings d c) := by
  unfold validator_xor
  rw [List.foldl_append]
  rfl

theorem window_hashes_fresh (hashFn : Bytes → Bytes) (cs : List Bytes) (V k : Nat) :
    dlookup (window_hashes hashFn cs V k) (k + 1) = none := by
  rw [dlookup_none_iff]
  intro p hp
  rcases List.mem_map.mp hp with ⟨n, hn, rfl⟩
  rw [List.mem_range'_1] at hn
  have hd := Nat.div_add_mod k V
  simp only
  omega

/-- The window range extended by the freshly read block `k + 1`. -/
theorem window_range_step (V k : Nat) :
    List.range' (V * (k / V) + 1) (k % V) ++ [k + 1] =
      List.range' (V * (k / V) + 1) (k % V + 1) := by
  have hd := Nat.div_add_mod k V
  have h1 : k + 1 = V * (k / V) + 1 + 1 * (k % V) := by omega
  rw [List.range'_concat, h1]

theorem validator_update_step (hashFn : Bytes → Bytes) (cs : List Bytes) (V k : Nat) :
    Validator.update hashFn
        ⟨validator_xor (window_chunks cs V k), window_hashes hashFn cs V k⟩
        (cs.getD k []) (k + 1) =
      ⟨validator_xor ((List.range' (V * (k / V) + 1) (k % V + 1)).map
          (fun n => cs.getD (n - 1) [])),
        (List.range' (V * (k / V) + 1) (k % V + 1)).map
          (fun n => (n, hashFn (cs.getD (n - 1) [])))⟩ := by
  unfold Validator.update
  congr 1
  · show (match validator_xor (window_chunks cs V k) with
      | none => some (cs.getD k [])
      | some d => some (xor_strings d (cs.getD k []))) =
      validator_xor ((List.range' (V * (k / V) + 1) (k % V + 1)).map
        (fun n => cs.getD (n - 1) []))
    rw [← window_range_step, List.map_append, List.map_cons, List.map_nil]
    simp only [Nat.add_sub_cancel]
    rw [validator_xor_append]
    unfold window_chunks
    rfl
  · show dinsert (window_hashes hashFn cs V k) (k + 1) (hashFn (cs.getD k [])) = _
    rw [dinsert_fresh _ _ _ (window_hashes_fresh hashFn cs V k)]
    rw [← window_range_step, List.map_append, List.map_cons, List.map_nil]
    simp only [Nat.add_sub_cancel]
    rfl

/-- At a group boundary (`(k+1) % V = 0` with `k + 1 ≤ N`) the extended
window is exactly parity group `(k+1)/V = k/V + 1`. -/
theorem window_boundary (V k N : Nat) (hV : 1 ≤ V) (hb : (k + 1) % V = 0)
    (hkN : k + 1 ≤ N) :
    List.range' (V * (k / V) + 1) (k % V + 1) = group_range V N (k / V + 1) := by
  have hdvd : V ∣ (k + 1) := Nat.dvd_of_mod_eq_zero hb
  have hsd : (k + 1) / V = k / V + 1 := Nat.succ_div_of_dvd hdvd
  have hd := Nat.div_add_mod k V
  have hd1 := Nat.div_add_mod (k + 1) V
  rw [hb, Nat.add_zero] at hd1
  have hmul : V * ((k + 1) / V) = V * (k / V) + V := by
    rw [hsd, Nat.mul_succ]
  have hkV : k % V + 1 = V := by omega
  have hGmul : (k / V + 1) * V ≤ N := by
    rw [Nat.succ_mul, Nat.mul_comm (k / V) V]
    omega
  have hstart : 1 + V * (k / V + 1 - 1) = V * (k / V) + 1 := by
    rw [Nat.add_sub_cancel (k / V) 1, Nat.add_comm]
  rw [group_range_full V N (k / V + 1) (Nat.le_add_left 1 _) hGmul, hstart, hkV]

theorem window_nonboundary_div (V k : Nat) (hb : (k + 1) % V ≠ 0) :
    (k + 1) / V = k / V ∧ (k + 1) % V = k % V + 1 := by
  have hdvd : ¬ V ∣ (k + 1) := by
    intro h
    rcases h with ⟨c, hc⟩
    rw [hc] at hb
    exact hb (Nat.mul_mod_right V c)
  have hsd : (k + 1) / V = k / V := Nat.succ_div_of_not_dvd hdvd
  have hd := Nat.div_add_mod k V
  have hd1 := Nat.div_add_mod (k + 1) V
  rw [hsd] at hd1
  exact ⟨hsd, by omega⟩

/-! ### The contents of the messages a distribute run sends -/

/-- The contents of the DATA messages for block `n` in a send list. -/
def sends_data (out : List Blk) (n : Nat) : List Bytes :=
  (out.filter (fun b => b.block_type == BType.data && b.number == n)).map (·.content)

/-- The contents of the METADATA messages for group `g` in a send list. -/
def sends_meta (out : List Blk) (g : Nat) : List Bytes :=
  (out.filter (fun b => b.block_type == BType.metadata && b.number == g)).map (·.content)

theorem sends_data_append (o1 o2 : List Blk) (n : Nat) :
    sends_data (o1 ++ o2) n = sends_data o1 n ++ sends_data o2 n := by
  simp [sends_data]

theorem sends_meta_append (o1 o2 : List Blk) (g : Nat) :
    sends_meta (o1 ++ o2) g = sends_meta o1 g ++ sends_meta o2 g := by
  simp [sends_meta]

theorem sends_data_meta_blk (cl num : Nat) (cont : Bytes) (n : Nat) :
    sends_data [⟨cl, BType.metadata, num, cont⟩] n = [] := rfl

theorem sends_meta_data_blk (cl num : Nat) (cont : Bytes) (g : Nat) :
    sends_meta [⟨cl, BType.data, num, cont⟩] g = [] := rfl

theorem sends_meta_meta_blk (cl num : Nat) (cont : Bytes) (g : Nat) :
    sends_meta [⟨cl, BType.metadata, num, cont⟩] g =
      if num = g then [cont] else [] := by
  unfold sends_meta
  by_cases h : num = g
  · subst h
    rw [List.filter_cons_of_pos (by simp)]
    simp
  · rw [List.filter_cons_of_neg (by simp [h])]
    simp [if_neg h]

theorem dupSends_data_self (ks : Nat → Nat) (P number : Nat) (content : Bytes) :
    ∀ (D ptr : Nat),
      sends_data (dupSends ks P number content D ptr).1 number =
        List.replicate D (encrypt ks content) := by
  intro D
  induction D with
  | zero => intro ptr; rfl
  | succ i ih =>
    intro ptr
    simp only [dupSends]
    unfold sends_data
    rw [List.filter_cons_of_pos (by simp)]
    rw [List.map_cons, List.replicate_succ]
    congr 1
    exact ih _

theorem dupSends_data_ne (ks : Nat → Nat) (P number : Nat) (content : Bytes)
    (n : Nat) (h : n ≠ number) :
    ∀ (D ptr : Nat),
      sends_data (dupSends ks P number content D ptr).1 n = [] := by
  intro D
  induction D with
  | zero => intro ptr; rfl
  | succ i ih =>
    intro ptr
    simp only [dupSends]
    unfold sends_data
    rw [List.filter_cons_of_neg (by simp; intro hc; exact absurd hc.symm h)]
    exact ih _

theorem dupSends_meta (ks : Nat → Nat) (P number : Nat) (content : Bytes)
    (g : Nat) :
    ∀ (D ptr : Nat),
      sends_meta (dupSends ks P number content D ptr).1 g = [] := by
  intro D
  induction D with
  | zero => intro ptr; rfl
  | succ i ih =>
    intro ptr
    simp only [dupSends]
    unfold sends_meta
    rw [List.filter_cons_of_neg (by simp)]
    exact ih _

theorem sends_data_cons_meta (cl num : Nat) (cont : Bytes) (out : List Blk)
    (n : Nat) :
    sends_data (⟨cl, BType.metadata, num, cont⟩ :: out) n = sends_data out n := by
  unfold sends_data
  rw [List.filter_cons_of_neg (by simp)]

theorem sends_meta_cons_meta (cl num : Nat) (cont : Bytes) (out : List Blk)
    (g : Nat) :
    sends_meta (⟨cl, BType.metadata, num, cont⟩ :: out) g =
      (if num = g then [cont] else []) ++ sends_meta out g := by
  unfold sends_meta
  by_cases h : num = g
  · subst h
    rw [List.filter_cons_of_pos (by simp)]
    simp
  · rw [List.filter_cons_of_neg (by simp [h])]
    simp [h]

theorem drop_cons_parts {α : Type} (cs : List α) (k : Nat) (c : α)
    (rest : List α) (d : α) (h : cs.drop k = c :: rest) :
    cs.getD k d = c ∧ cs.drop (k + 1) = rest := by
  constructor
  · have h0 : (cs.drop k)[0]? = cs[k]? := by
      rw [List.getElem?_drop, Nat.add_zero]
    rw [h] at h0
    simp only [List.getElem?_cons_zero] at h0
    simp [List.getD, ← h0]
  · have : cs.drop (k + 1) = (cs.drop k).drop 1 := by
      rw [List.drop_drop]
    rw [this, h]
    rfl

/-- One unfolding of the distribute loop at a validation boundary
(`count % V == 0`): the metadata block for the current group is emitted
(to `clients[data_client_pointer]`) before the data duplicates. -/
theorem dist_loop_cons_pos (ks : Nat → Nat) (hashFn : Bytes → Bytes)
    (D V P : Nat) (c : Bytes) (rest : List Bytes) (s : DState)
    (hb : (s.count % V == 0) = true) :
    dist_loop ks hashFn D V P (c :: rest) s =
      (⟨s.data_client_pointer, BType.metadata, s.validation_count,
          encrypt ks (encodeMeta ⟨(s.validator.update hashFn c s.count).blocks,
            (s.validator.update hashFn c s.count).data⟩)⟩ ::
        ((dupSends ks P s.count c D s.data_client_pointer).1 ++
          (dist_loop ks hashFn D V P rest
            ⟨s.count + 1, s.validation_count + 1,
              (dupSends ks P s.count c D s.data_client_pointer).2,
              (if s.metadata_client_pointer + 1 ≥ P then 0
               else s.metadata_client_pointer + 1),
              Validator.init⟩).1),
       (dist_loop ks hashFn D V P rest
          ⟨s.count + 1, s.validation_count + 1,
            (dupSends ks P s.count c D s.data_client_pointer).2,
            (if s.metadata_client_pointer + 1 ≥ P then 0
             else s.metadata_client_pointer + 1),
            Validator.init⟩).2) := by
  simp only [dist_loop]
  rw [if_pos hb]
  rfl

/-- One unfolding of the distribute loop away from a boundary. -/
theorem dist_loop_cons_neg (ks : Nat → Nat) (hashFn : Bytes → Bytes)
    (D V P : Nat) (c : Bytes) (rest : List Bytes) (s : DState)
    (hb : ¬ ((s.count % V == 0) = true)) :
    dist_loop ks hashFn D V P (c :: rest) s =
      ((dupSends ks P s.count c D s.data_client_pointer).1 ++
          (dist_loop ks hashFn D V P rest
            ⟨s.count + 1, s.validation_count,
              (dupSends ks P s.count c D s.data_client_pointer).2,
              (if s.metadata_client_pointer ≥ P then 0
               else s.metadata_client_pointer),
              s.validator.update hashFn c s.count⟩).1,
       (dist_loop ks hashFn D V P rest
          ⟨s.count + 1, s.validation_count,
            (dupSends ks P s.count c D s.data_client_pointer).2,
            (if s.metadata_client_pointer ≥ P then 0
             else s.metadata_client_pointer),
            s.validator.update hashFn c s.count⟩).2) := by
  simp only [dist_loop]
  rw [if_neg hb]
  rfl

/-- The contents of the messages emitted by the distribute loop, starting
after `k` consumed chunks with the loop invariant: each remaining block `n`
is sent `D` times encrypted, and each parity group `g` completed inside the
loop (`g ≤ N/V`) is sent once, as the encrypted encoded `group_meta`.  The
final state carries `validation_count = N/V + 1` and the trailing window in
its validator. -/
theorem dist_loop_spec (ks : Nat → Nat) (hashFn : Bytes → Bytes) (D V P : Nat)
    (hV : 1 ≤ V) (cs : List Bytes) :
    ∀ (suf : List Bytes) (k : Nat) (s : DState),
      cs.drop k = suf →
      k ≤ cs.length →
      s.count = k + 1 →
      s.validation_count = k / V + 1 →
      s.validator = ⟨validator_xor (window_chunks cs V k), window_hashes hashFn cs V k⟩ →
      (∀ n, sends_data (dist_loop ks hashFn D V P suf s).1 n =
          if k + 1 ≤ n ∧ n ≤ cs.length then
            List.replicate D (encrypt ks (cs.getD (n - 1) [])) else []) ∧
      (∀ g, sends_meta (dist_loop ks hashFn D V P suf s).1 g =
          if k / V + 1 ≤ g ∧ g ≤ cs.length / V then
            [encrypt ks (encodeMeta (group_meta hashFn cs V g))] else []) ∧
      (dist_loop ks hashFn D V P suf s).2.validation_count = cs.length / V + 1 ∧
      (dist_loop ks hashFn D V P suf s).2.validator =
        ⟨validator_xor (window_chunks cs V cs.length), window_hashes hashFn cs V cs.length⟩ := by
  intro suf
  induction suf with
  | nil =>
    intro k s hdrop hk hcount hvc hval
    have hlen := congrArg List.length hdrop
    rw [List.length_drop, List.length_nil] at hlen
    have hkN : k = cs.length := by omega
    subst hkN
    refine ⟨?_, ?_, ?_, ?_⟩
    · intro n
      rw [if_neg (by omega)]
      rfl
    · intro g
      rw [if_neg (by omega)]
      rfl
    · show s.validation_count = _
      rw [hvc]
    · show s.validator = _
      rw [hval]
  | cons c rest ih =>
    intro k s hdrop hk hcount hvc hval
    obtain ⟨hc, hrest⟩ := drop_cons_parts cs k c rest [] hdrop
    have hlen := congrArg List.length hdrop
    rw [List.length_drop, List.length_cons] at hlen
    have hkN : k < cs.length := by omega
    have hupd : s.validator.update hashFn c s.count =
        ⟨validator_xor ((List.range' (V * (k / V) + 1) (k % V + 1)).map
            (fun n => cs.getD (n - 1) [])),
          (List.range' (V * (k / V) + 1) (k % V + 1)).map
            (fun n => (n, hashFn (cs.getD (n - 1) [])))⟩ := by
      rw [hval, hcount, ← hc]
      exact validator_update_step hashFn cs V k
    by_cases hb : (k + 1) % V = 0
    · -- boundary: the group g = k/V + 1 is completed and its metadata sent
      have hbeq : (s.count % V == 0) = true := by
        rw [hcount]; exact beq_iff_eq.mpr hb
      have hg := window_boundary V k cs.length hV hb (by omega)
      have hsd : (k + 1) / V = k / V + 1 :=
        Nat.succ_div_of_dvd (Nat.dvd_of_mod_eq_zero hb)
      have hmetaval : (⟨(s.validator.update hashFn c s.count).blocks,
          (s.validator.update hashFn c s.count).data⟩ : MetaVal) =
          group_meta hashFn cs V (k / V + 1) := by
        rw [hupd]
        unfold group_meta group_hashes group_chunks
        rw [← hg]
      rw [dist_loop_cons_pos ks hashFn D V P c rest s hbeq, hmetaval, hcount, hvc]
      obtain ⟨ihd, ihm, ihvc, ihval⟩ := ih (k + 1)
        ⟨k + 1 + 1, k / V + 1 + 1,
          (dupSends ks P (k + 1) c D s.data_client_pointer).2,
          (if s.metadata_client_pointer + 1 ≥ P then 0
           else s.metadata_client_pointer + 1),
          Validator.init⟩
        hrest (by omega) rfl (by show k / V + 1 + 1 = (k + 1) / V + 1; rw [hsd])
        (by
          show Validator.init = _
          unfold Validator.init window_chunks window_hashes
          rw [hb]
          rfl)
      simp only [hsd] at ihm
      refine ⟨?_, ?_, ?_, ?_⟩
      · intro n
        rw [sends_data_cons_meta, sends_data_append]
        by_cases hn : n = k + 1
        · subst hn
          rw [dupSends_data_self, ihd (k + 1), if_neg (by omega),
            if_pos (by omega), List.append_nil]
          rw [show k + 1 - 1 = k from rfl, hc]
        · rw [dupSends_data_ne ks P (k + 1) c n hn, ihd n, List.nil_append]
          by_cases hcond : k + 1 + 1 ≤ n ∧ n ≤ cs.length
          · rw [if_pos hcond, if_pos (by omega)]
          · rw [if_neg hcond, if_neg (by omega)]
      · intro g
        rw [sends_meta_cons_meta, sends_meta_append, dupSends_meta, ihm g,
          List.nil_append]
        have hgNV : k / V + 1 ≤ cs.length / V := by
          rw [← hsd]
          exact Nat.div_le_div_right (by omega)
        by_cases hg1 : k / V + 1 = g
        · rw [if_pos hg1, if_neg (by omega), List.append_nil, if_pos (by omega)]
          rw [hg1]
        · rw [if_neg hg1, List.nil_append]
          by_cases hcond : k / V + 1 + 1 ≤ g ∧ g ≤ cs.length / V
          · rw [if_pos hcond, if_pos (by omega)]
          · rw [if_neg hcond, if_neg (by omega)]
      · exact ihvc
      · exact ihval
    · -- not a boundary: only the data duplicates are sent
      have hbeq : ¬ ((s.count % V == 0) = true) := by
        rw [hcount]
        simp only [beq_iff_eq]
        exact hb
      have hnb := window_nonboundary_div V k hb
      have hval1 : s.validator.update hashFn c s.count =
          ⟨validator_xor (window_chunks cs V (k + 1)),
            window_hashes hashFn cs V (k + 1)⟩ := by
        rw [hupd]
        unfold window_chunks window_hashes
        rw [hnb.1, hnb.2]
      rw [dist_loop_cons_neg ks hashFn D V P c rest s hbeq, hval1, hcount, hvc]
      obtain ⟨ihd, ihm, ihvc, ihval⟩ := ih (k + 1)
        ⟨k + 1 + 1, k / V + 1,
          (dupSends ks P (k + 1) c D s.data_client_pointer).2,
          (if s.metadata_client_pointer ≥ P then 0
           else s.metadata_client_pointer),
          ⟨validator_xor (window_chunks cs V (k + 1)),
            window_hashes hashFn cs V (k + 1)⟩⟩
        hrest (by omega) rfl (by show k / V + 1 = (k + 1) / V + 1; rw [hnb.1]) rfl
      refine ⟨?_, ?_, ?_, ?_⟩
      · intro n
        rw [sends_data_append]
        by_cases hn : n = k + 1
        · subst hn
          rw [dupSends_data_self, ihd (k + 1), if_neg (by omega),
            if_pos (by omega), List.append_nil]
          rw [show k + 1 - 1 = k from rfl, hc]
        · rw [dupSends_data_ne ks P (k + 1) c n hn, ihd n, List.nil_append]
          by_cases hcond : k + 1 + 1 ≤ n ∧ n ≤ cs.length
          · rw [if_pos hcond, if_pos (by omega)]
          · rw [if_neg hcond, if_neg (by omega)]
      · intro g
        rw [sends_meta_append, dupSends_meta, ihm g, List.nil_append]
        rw [hnb.1]
      · exact ihvc
      · exact ihval

theorem window_zero_chunks (cs : List Bytes) (V : Nat) :
    window_chunks cs V 0 = [] := by
  unfold window_chunks
  rw [Nat.zero_mod]
  rfl

theorem window_zero_hashes (hashFn : Bytes → Bytes) (cs : List Bytes) (V : Nat) :
    window_hashes hashFn cs V 0 = [] := by
  unfold window_hashes
  rw [Nat.zero_mod]
  rfl

/-- The DATA messages of a full distribute run: each block `1..N` (over the
chunk list) is sent exactly `D` times, encrypted. -/
theorem distribute_run_data (ks : Nat → Nat) (hashFn : Bytes → Bytes)
    (f : Bytes) (bs D V P : Nat) (hbs : 1 ≤ bs) (hV : 1 ≤ V) (n : Nat) :
    sends_data (distribute_run ks hashFn (some f) bs D V P).sends n =
      if 1 ≤ n ∧ n ≤ (chunkify bs f).length then
        List.replicate D (encrypt ks ((chunkify bs f).getD (n - 1) []))
      else [] := by
  obtain ⟨ihd, ihm, ihvc, ihval⟩ := dist_loop_spec ks hashFn D V P hV
    (chunkify bs f) (chunkify bs f) 0 ⟨1, 1, 0, 0, Validator.init⟩
    rfl (Nat.zero_le _) rfl (by rw [Nat.zero_div])
    (by
      show Validator.init = _
      rw [window_zero_chunks, window_zero_hashes]
      rfl)
  simp only [distribute_run, DistOut.sends]
  rw [sends_data_append, ihd n]
  have htrail : sends_data
      (if f.length % bs ≠ 0 then
        [⟨(dist_loop ks hashFn D V P (chunkify bs f)
            ⟨1, 1, 0, 0, Validator.init⟩).2.metadata_client_pointer, BType.metadata,
          (dist_loop ks hashFn D V P (chunkify bs f)
            ⟨1, 1, 0, 0, Validator.init⟩).2.validation_count,
          encrypt ks (encodeMeta ⟨(dist_loop ks hashFn D V P (chunkify bs f)
              ⟨1, 1, 0, 0, Validator.init⟩).2.validator.blocks,
            (dist_loop ks hashFn D V P (chunkify bs f)
              ⟨1, 1, 0, 0, Validator.init⟩).2.validator.data⟩)⟩]
      else []) n = [] := by
    by_cases ht : f.length % bs ≠ 0
    · rw [if_pos ht, sends_data_meta_blk]
    · rw [if_neg ht]
      rfl
  rw [htrail, List.append_nil, Nat.zero_add]

/-- The METADATA messages of a full distribute run: one per in-loop group
`1..N/V`, plus — exactly when `file_size % block_size ≠ 0` — the trailing
block numbered `N/V + 1` carrying the final validator window. -/
theorem distribute_meta_sends (ks : Nat → Nat) (hashFn : Bytes → Bytes)
    (f : Bytes) (bs D V P : Nat) (hbs : 1 ≤ bs) (hV : 1 ≤ V) (g : Nat) :
    sends_meta (distribute_run ks hashFn (some f) bs D V P).sends g =
      (if 1 ≤ g ∧ g ≤ (chunkify bs f).length / V then
        [encrypt ks (encodeMeta (group_meta hashFn (chunkify bs f) V g))] else []) ++
      (if f.length % bs ≠ 0 ∧ g = (chunkify bs f).length / V + 1 then
        [encrypt ks (encodeMeta
          ⟨window_hashes hashFn (chunkify bs f) V (chunkify bs f).length,
            validator_xor (window_chunks (chunkify bs f) V (chunkify bs f).length)⟩)]
      else []) := by
  obtain ⟨ihd, ihm, ihvc, ihval⟩ := dist_loop_spec ks hashFn D V P hV
    (chunkify bs f) (chunkify bs f) 0 ⟨1, 1, 0, 0, Validator.init⟩
    rfl (Nat.zero_le _) rfl (by rw [Nat.zero_div])
    (by
      show Validator.init = _
      rw [window_zero_chunks, window_zero_hashes]
      rfl)
  simp only [Nat.zero_div, Nat.zero_add] at ihm
  simp only [distribute_run, DistOut.sends]
  rw [sends_meta_append, ihm g]
  congr 1
  by_cases ht : f.length % bs ≠ 0
  · rw [if_pos ht, sends_meta_meta_blk, ihvc, ihval]
    by_cases hg : (chunkify bs f).length / V + 1 = g
    · rw [if_pos hg, if_pos ⟨ht, hg.symm⟩]
    · rw [if_neg hg, if_neg (fun hc => hg hc.2.symm)]
  · rw [if_neg ht]
    have h0 : sends_meta ([] : List Blk) g = [] := rfl
    rw [h0, if_neg (fun hc => ht hc.1)]

/-! ### Staging lemmas: what phase A leaves on disk after a healthy run -/

/-- The staged (decrypted) copy of a sent block. -/
def stagedOf (ks : Nat → Nat) (b : Blk) : Blk := { b with content := decrypt ks b.content }

theorem sameKey_iff (a b : Blk) :
    sameKey a b = true ↔
      a.client = b.client ∧ a.block_type = b.block_type ∧ a.number = b.number := by
  unfold sameKey
  simp [Bool.and_eq_true, beq_iff_eq, and_assoc]

theorem getLast?_mem {α : Type} {l : List α} {p : α} (h : l.getLast? = some p) :
    p ∈ l := by
  rcases List.mem_getLast?_eq_getLast (by rw [Option.mem_def]; exact h) with ⟨hne, hp⟩
  rw [hp]
  exact List.getLast_mem hne

theorem mem_upsert {l : List Blk} {b x : Blk} (h : x ∈ upsert l b) :
    x = b ∨ x ∈ l := by
  unfold upsert at h
  by_cases hc : l.any (sameKey b) = true
  · rw [if_pos hc] at h
    rcases List.mem_map.mp h with ⟨y, hy, hxy⟩
    by_cases hk : sameKey b y = true
    · rw [if_pos hk] at hxy
      exact Or.inl hxy.symm
    · rw [if_neg hk] at hxy
      exact Or.inr (hxy ▸ hy)
  · rw [if_neg hc] at h
    rcases List.mem_append.mp h with h1 | h1
    · exact Or.inr h1
    · rcases List.mem_singleton.mp h1 with rfl
      exact Or.inl rfl

theorem upsert_key_present (l : List Blk) (b : Blk) :
    ∃ x ∈ upsert l b, sameKey x b = true := by
  unfold upsert
  by_cases hc : l.any (sameKey b) = true
  · rw [if_pos hc]
    rcases List.any_eq_true.mp hc with ⟨y, hy, hk⟩
    refine ⟨b, ?_, ?_⟩
    · exact List.mem_map.mpr ⟨y, hy, by rw [if_pos hk]⟩
    · rw [sameKey_iff]
      exact ⟨rfl, rfl, rfl⟩
  · rw [if_neg hc]
    refine ⟨b, List.mem_append.mpr (Or.inr (List.mem_singleton.mpr rfl)), ?_⟩
    rw [sameKey_iff]
    exact ⟨rfl, rfl, rfl⟩

theorem upsert_preserves_key {l : List Blk} {a : Blk}
    (h : ∃ x ∈ l, sameKey x a = true) (b : Blk) :
    ∃ x ∈ upsert l b, sameKey x a = true := by
  rcases h with ⟨x, hx, hk⟩
  unfold upsert
  by_cases hc : l.any (sameKey b) = true
  · rw [if_pos hc]
    by_cases hbx : sameKey b x = true
    · refine ⟨b, List.mem_map.mpr ⟨x, hx, by rw [if_pos hbx]⟩, ?_⟩
      rw [sameKey_iff] at hbx hk ⊢
      exact ⟨hbx.1.trans hk.1, hbx.2.1.trans hk.2.1, hbx.2.2.trans hk.2.2⟩
    · exact ⟨x, List.mem_map.mpr ⟨x, hx, by rw [if_neg hbx]⟩, hk⟩
  · rw [if_neg hc]
    exact ⟨x, List.mem_append.mpr (Or.inl hx), hk⟩

theorem stage_fold_mem (ks : Nat → Nat) (sends : List Blk) :
    ∀ (acc : List Blk) (x : Blk),
      x ∈ sends.foldl (fun acc s => upsert acc (stagedOf ks s)) acc →
      x ∈ acc ∨ ∃ b ∈ sends, x = stagedOf ks b := by
  induction sends with
  | nil => intro acc x h; exact Or.inl h
  | cons s rest ih =>
    intro acc x h
    simp only [List.foldl] at h
    rcases ih (upsert acc (stagedOf ks s)) x h with h1 | h1
    · rcases mem_upsert h1 with h2 | h2
      · exact Or.inr ⟨s, List.mem_cons_self _ _, h2⟩
      · exact Or.inl h2
    · rcases h1 with ⟨b, hb, hx⟩
      exact Or.inr ⟨b, List.mem_cons_of_mem _ hb, hx⟩

theorem stage_fold_key (ks : Nat → Nat) (sends : List Blk) :
    ∀ (acc : List Blk) (a : Blk),
      ((∃ x ∈ acc, sameKey x a = true) ∨ ∃ b ∈ sends, sameKey (stagedOf ks b) a = true) →
      ∃ x ∈ sends.foldl (fun acc s => upsert acc (stagedOf ks s)) acc,
        sameKey x a = true := by
  induction sends with
  | nil =>
    intro acc a h
    rcases h with h | ⟨b, hb, _⟩
    · exact h
    · cases hb
  | cons s rest ih =>
    intro acc a h
    simp only [List.foldl]
    apply ih
    rcases h with h | ⟨b, hb, hk⟩
    · exact Or.inl (upsert_preserves_key h (stagedOf ks s))
    · rcases List.mem_cons.mp hb with h1 | h1
      · rw [h1] at hk
        left
        rcases upsert_key_present acc (stagedOf ks s) with ⟨x, hx, hxk⟩
        refine ⟨x, hx, ?_⟩
        rw [sameKey_iff] at hxk hk ⊢
        exact ⟨hxk.1.trans hk.1, hxk.2.1.trans hk.2.1, hxk.2.2.trans hk.2.2⟩
      · exact Or.inr ⟨b, h1, hk⟩

theorem mem_stage_blocks {ks : Nat → Nat} {sends : List Blk} {x : Blk}
    (h : x ∈ stage_blocks ks sends) : ∃ b ∈ sends, x = stagedOf ks b := by
  rcases stage_fold_mem ks sends [] x h with h1 | h1
  · cases h1
  · exact h1

theorem stage_blocks_key {ks : Nat → Nat} {sends : List Blk} {b : Blk}
    (h : b ∈ sends) :
    ∃ x ∈ stage_blocks ks sends, sameKey x (stagedOf ks b) = true :=
  stage_fold_key ks sends [] (stagedOf ks b)
    (Or.inr ⟨b, h, by rw [sameKey_iff]; exact ⟨rfl, rfl, rfl⟩⟩)

/-! ### Dict, padding and parity helpers for the restore proof -/

theorem dlookup_map_replace {α : Type} (m : List (Nat × α)) (k : Nat) (v : α)
    (n : Nat) :
    dlookup (m.map (fun p => if p.1 == k then (k, v) else p)) n =
      if n = k then (if m.any (fun p => p.1 == k) then some v else none)
      else dlookup m n := by
  induction m with
  | nil =>
    simp only [List.map_nil, dlookup_nil, List.any_nil]
    by_cases h : n = k
    · rw [if_pos h, if_neg (by simp)]
    · rw [if_neg h]
  | cons p rest ih =>
    obtain ⟨k1, v1⟩ := p
    rw [List.map_cons, List.any_cons]
    by_cases h1 : k1 = k
    · simp only [h1, beq_self_eq_true, if_true, Bool.true_or]
      by_cases h : n = k
      · subst h
        rw [dlookup_cons_self, if_pos rfl]
      · rw [dlookup_cons_ne n k v _ (fun he => h he.symm), ih, if_neg h, if_neg h,
          dlookup_cons_ne n k v1 rest (fun he => h he.symm)]
    · have hb : (k1 == k) = false := by simpa using h1
      rw [hb]
      simp only [Bool.false_eq_true, if_false, Bool.false_or]
      by_cases h : n = k1
      · subst h
        rw [dlookup_cons_self, if_neg h1, dlookup_cons_self]
      · rw [dlookup_cons_ne n k1 v1 _ (fun he => h he.symm), ih,
          dlookup_cons_ne n k1 v1 rest (fun he => h he.symm)]

theorem dlookup_dinsert {α : Type} (m : List (Nat × α)) (k : Nat) (v : α)
    (n : Nat) :
    dlookup (dinsert m k v) n = if n = k then some v else dlookup m n := by
  unfold dinsert
  by_cases hany : m.any (fun p => p.1 == k) = true
  · rw [if_pos hany, dlookup_map_replace, hany]
    simp
  · rw [if_neg hany, dlookup_append]
    by_cases hn : n = k
    · subst hn
      have hnone : dlookup m n = none := by
        rw [dlookup_none_iff]
        intro p hp hpk
        exact hany (List.any_eq_true.mpr ⟨p, hp, by simpa using hpk⟩)
      rw [hnone, if_pos rfl, dlookup_cons_self]
    · rw [if_neg hn]
      cases hm : dlookup m n with
      | some w => rfl
      | none => rw [dlookup_cons_ne _ _ _ _ (fun he => hn he.symm), dlookup_nil]

theorem padRight_of_le (c : Bytes) (L : Nat) (h : L ≤ c.length) :
    padRight c L = c := by
  unfold padRight
  rw [show L - c.length = 0 from by omega, List.replicate_zero, List.append_nil]

theorem maxLen_le (cl : List Bytes) (L : Nat)
    (h : ∀ c ∈ cl, c.length ≤ L) : maxLen cl ≤ L := by
  induction cl with
  | nil => exact Nat.zero_le L
  | cons c rest ih =>
    unfold maxLen
    simp only [List.foldr_cons]
    have h1 : c.length ≤ L := h c (List.mem_cons_self _ _)
    have h2 : maxLen rest ≤ L := ih (fun x hx => h x (List.mem_cons_of_mem _ hx))
    unfold maxLen at h2
    omega

theorem validator_xor_ne_nil (cl : List Bytes) (h : cl ≠ []) :
    validator_xor cl = some (cl.foldl xor_strings []) := by
  cases cl with
  | nil => exact absurd rfl h
  | cons c rest =>
    simp only [validator_xor, List.foldl]
    rw [validator_xor_some, xor_strings_nil_left]

theorem eraseIdx_append_middle {α : Type} (A B : List α) (x : α) :
    (A ++ x :: B).eraseIdx A.length = A ++ B := by
  induction A with
  | nil => rfl
  | cons a A ih =>
    simp only [List.cons_append, List.length_cons, List.eraseIdx_cons_succ, ih]

/-- `xor_reconstruction` with the erased position given by a list split:
XORing the parity of the whole group with every block except `x` recovers
`x`, zero-padded to the longest block of the group. -/
theorem xor_reconstruction_split (A B : List Bytes) (x : Bytes) :
    (A ++ B).foldl xor_strings ((A ++ x :: B).foldl xor_strings []) =
      padRight x (maxLen (A ++ x :: B)) := by
  have hm : A.length < (A ++ x :: B).length := by
    rw [List.length_append, List.length_cons]
    omega
  have h1 : (A ++ x :: B).eraseIdx A.length = A ++ B :=
    eraseIdx_append_middle A B x
  have h2 : (A ++ x :: B)[A.length] = x := by
    rw [List.getElem_append_right (le_refl A.length)]
    simp
  have h := xor_reconstruction (A ++ x :: B) A.length hm
  rw [h1, h2] at h
  exact h

/-- Splitting a duplicate-free list at a member: the element occurs once, and
filtering it out removes exactly that occurrence. -/
theorem nodup_split_filter_ne (l : List Nat) (n0 : Nat) (hnd : l.Nodup)
    (hm : n0 ∈ l) :
    ∃ l1 l2, l = l1 ++ n0 :: l2 ∧
      l.filter (fun d => !(d == n0)) = l1 ++ l2 := by
  rcases List.append_of_mem hm with ⟨l1, l2, rfl⟩
  rcases List.nodup_append.mp hnd with ⟨hnd1, hnd2, hdisj⟩
  have hn1 : n0 ∉ l1 := fun hc => hdisj hc (List.mem_cons_self _ _)
  have hn2 : n0 ∉ l2 := (List.nodup_cons.mp hnd2).1
  refine ⟨l1, l2, rfl, ?_⟩
  rw [List.filter_append]
  have hf1 : l1.filter (fun d => !(d == n0)) = l1 :=
    List.filter_eq_self.mpr (fun a ha => by
      simp only [Bool.not_eq_true', beq_eq_false_iff_ne, ne_eq]
      intro he
      exact hn1 (he ▸ ha))
  have hf2 : (n0 :: l2).filter (fun d => !(d == n0)) = l2 := by
    rw [List.filter_cons_of_neg (by simp)]
    exact List.filter_eq_self.mpr (fun a ha => by
      simp only [Bool.not_eq_true', beq_eq_false_iff_ne, ne_eq]
      intro he
      exact hn2 (he ▸ ha))
  rw [hf1, hf2]

/-- Every group number in `1..validation_number` is a key of the phase-B
mapping. -/
theorem mem_group_keys (staged : List Blk) (N V g : Nat) (hg1 : 1 ≤ g)
    (hgG : g ≤ block_number N V) : g ∈ group_keys staged N V := by
  unfold group_keys
  by_cases hf : g ∈ firstDedup ((get_meta_blocks staged).map (·.number))
  · exact List.mem_append.mpr (Or.inl hf)
  · refine List.mem_append.mpr (Or.inr ?_)
    refine List.mem_filter.mpr ⟨?_, ?_⟩
    · rw [List.mem_range'_1]
      omega
    · simp only [Bool.not_eq_eq_eq_not, Bool.not_true]
      simp [List.contains]
      exact hf

/-- One entry of the phase-B mapping: `build_mapping` is the map of this
function over the mapping keys. -/
def entry_of (staged : List Blk) (N V : Nat) (g : Nat) : GroupEntry :=
  { gnum := g,
    path := meta_path_of staged g,
    blocks := if 1 ≤ g ∧ g ≤ block_number N V then
        (group_range V N g).map (fun d => (d, get_data_blocks staged d))
      else [] }

theorem build_mapping_eq_map (staged : List Blk) (N V : Nat) :
    build_mapping staged N V = (group_keys staged N V).map (entry_of staged N V) :=
  rfl

/-- The decoded metadata of group `g` as phase C sees it. -/
def dMeta (staged : List Blk) (g : Nat) : Option MetaVal :=
  match meta_path_of staged g with
  | none => none
  | some p => decodeMeta p.content

/-! ### Phase C loop characterizations -/

theorem valid_loop1_cons_empty (hashFn : Bytes → Bytes) (meta : MetaVal) (d : Nat)
    (rest : List (Nat × List Blk)) (st : RState) (miss : List Nat) (h : Bytes)
    (hlk : dlookup meta.hashes d = some h) :
    valid_loop1 hashFn meta ((d, []) :: rest) st miss =
      valid_loop1 hashFn meta rest { st with block_hash := some h } (miss ++ [d]) := by
  simp only [valid_loop1, hlk]

theorem valid_loop1_cons_found (hashFn : Bytes → Bytes) (meta : MetaVal) (d : Nat)
    (c0 : Blk) (cl : List Blk) (rest : List (Nat × List Blk)) (st : RState)
    (miss : List Nat) (h : Bytes) (c : Blk)
    (hlk : dlookup meta.hashes d = some h)
    (hfind : (c0 :: cl).find? (fun x => hashFn x.content == h) = some c) :
    valid_loop1 hashFn meta ((d, c0 :: cl) :: rest) st miss =
      valid_loop1 hashFn meta rest
        { st with block_hash := some h,
                  valid_blocks := dinsert st.valid_blocks d c.content } miss := by
  simp only [valid_loop1, hlk, hfind]

/-- Lines 278-298 over a group with sound metadata: each expected block with
surviving candidates is accepted with the original chunk content, each block
with no candidates is recorded missing, and nothing else changes. -/
theorem valid_loop1_spec (hashFn : Bytes → Bytes) (cs : List Bytes) (V g : Nat)
    (staged : List Blk) (lost : Nat → Bool) :
    ∀ (ds : List Nat) (st : RState) (miss0 : List Nat),
      st.crashed = false →
      (∀ d ∈ ds, d ∈ group_range V cs.length g) →
      (∀ d ∈ ds, lost d = true → get_data_blocks staged d = []) →
      (∀ d ∈ ds, lost d = false → get_data_blocks staged d ≠ []) →
      (∀ d ∈ ds, ∀ s ∈ get_data_blocks staged d, s.content = cs.getD (d - 1) []) →
      ∃ st2,
        valid_loop1 hashFn (group_meta hashFn cs V g)
            (ds.map (fun d => (d, get_data_blocks staged d))) st miss0 =
          (st2, miss0 ++ ds.filter lost) ∧
        st2.crashed = false ∧
        st2.missing_data = st.missing_data ∧
        st2.missing_metadata = st.missing_metadata ∧
        ∀ n, dlookup st2.valid_blocks n =
          if n ∈ ds ∧ lost n = false then some (cs.getD (n - 1) [])
          else dlookup st.valid_blocks n := by
  intro ds
  induction ds with
  | nil =>
    intro st miss0 hcr _ _ _ _
    refine ⟨st, ?_, hcr, rfl, rfl, ?_⟩
    · simp [valid_loop1]
    · intro n
      rw [if_neg (by simp)]
  | cons d ds ih =>
    intro st miss0 hcr hmem hlostE hlive hcont
    have hdmem : d ∈ group_range V cs.length g := hmem d (List.mem_cons_self _ _)
    have hlk : dlookup (group_meta hashFn cs V g).hashes d =
        some (hashFn (cs.getD (d - 1) [])) := by
      show dlookup (group_hashes hashFn cs V g) d = _
      unfold group_hashes
      exact dlookup_map_self _ _ _ hdmem
    by_cases hl : lost d = true
    · have hcand : get_data_blocks staged d = [] :=
        hlostE d (List.mem_cons_self _ _) hl
      rw [List.map_cons, hcand,
        valid_loop1_cons_empty hashFn _ d _ st miss0 _ hlk]
      obtain ⟨st2, heq, hcr2, hmd2, hmm2, hlook⟩ :=
        ih { st with block_hash := some (hashFn (cs.getD (d - 1) [])) } (miss0 ++ [d])
          hcr (fun x hx => hmem x (List.mem_cons_of_mem _ hx))
          (fun x hx => hlostE x (List.mem_cons_of_mem _ hx))
          (fun x hx => hlive x (List.mem_cons_of_mem _ hx))
          (fun x hx => hcont x (List.mem_cons_of_mem _ hx))
      refine ⟨st2, ?_, hcr2, hmd2, hmm2, ?_⟩
      · rw [heq, List.filter_cons_of_pos hl, List.append_assoc]
        rfl
      · intro n
        rw [hlook n]
        by_cases hc : n ∈ ds ∧ lost n = false
        · rw [if_pos hc, if_pos ⟨List.mem_cons_of_mem _ hc.1, hc.2⟩]
        · rw [if_neg hc, if_neg (fun hcon => by
            rcases List.mem_cons.mp hcon.1 with h1 | h1
            · rw [h1] at hcon
              exact absurd hcon.2 (by simp [hl])
            · exact hc ⟨h1, hcon.2⟩)]
    · have hl' : lost d = false := by simpa using hl
      have hne : get_data_blocks staged d ≠ [] :=
        hlive d (List.mem_cons_self _ _) hl'
      obtain ⟨c0, cl, hceq⟩ := List.exists_cons_of_ne_nil hne
      obtain ⟨c, hfind, hcc⟩ := find?_hash_first hashFn (cs.getD (d - 1) [])
        (get_data_blocks staged d) (hcont d (List.mem_cons_self _ _)) hne
      rw [hceq] at hfind
      rw [List.map_cons, hceq,
        valid_loop1_cons_found hashFn _ d c0 cl _ st miss0 _ c hlk hfind]
      obtain ⟨st2, heq, hcr2, hmd2, hmm2, hlook⟩ :=
        ih { st with block_hash := some (hashFn (cs.getD (d - 1) [])),
                     valid_blocks := dinsert st.valid_blocks d c.content } miss0
          hcr (fun x hx => hmem x (List.mem_cons_of_mem _ hx))
          (fun x hx => hlostE x (List.mem_cons_of_mem _ hx))
          (fun x hx => hlive x (List.mem_cons_of_mem _ hx))
          (fun x hx => hcont x (List.mem_cons_of_mem _ hx))
      refine ⟨st2, ?_, hcr2, hmd2, hmm2, ?_⟩
      · rw [heq, List.filter_cons_of_neg (by simp [hl'])]
      · intro n
        rw [hlook n]
        by_cases hc : n ∈ ds ∧ lost n = false
        · rw [if_pos hc, if_pos ⟨List.mem_cons_of_mem _ hc.1, hc.2⟩]
        · rw [if_neg hc]
          have hsti : dlookup (dinsert st.valid_blocks d c.content) n =
              if n = d then some c.content else dlookup st.valid_blocks n :=
            dlookup_dinsert st.valid_blocks d c.content n
          rw [hsti]
          by_cases hnd : n = d
          · rw [if_pos hnd, if_pos ⟨by rw [hnd]; exact List.mem_cons_self _ _,
              by rw [hnd]; exact hl'⟩, hcc, hnd]
          · rw [if_neg hnd, if_neg (fun hcon => by
              rcases List.mem_cons.mp hcon.1 with h1 | h1
              · exact hnd h1
              · exact hc ⟨h1, hcon.2⟩)]

/-- Lines 305-308: when every expected block is either valid or already
recorded missing, the second pass adds nothing. -/
theorem valid_loop2_spec (staged : List Blk) (valid : List (Nat × Bytes))
    (lost : Nat → Bool) :
    ∀ (ds : List Nat) (miss0 : List Nat),
      (∀ d ∈ ds, lost d = true → d ∈ miss0) →
      (∀ d ∈ ds, lost d = false → (dlookup valid d).isSome = true) →
      valid_loop2 valid (ds.map (fun d => (d, get_data_blocks staged d))) miss0 =
        miss0 := by
  intro ds
  induction ds with
  | nil => intro miss0 _ _; rfl
  | cons d ds ih =>
    intro miss0 h1 h2
    rw [List.map_cons]
    have hcond : ((dlookup valid d).isNone && !miss0.contains d) = false := by
      by_cases hl : lost d = true
      · have hmem : d ∈ miss0 := h1 d (List.mem_cons_self _ _) hl
        have : miss0.contains d = true := by
          simp [List.contains]
          exact hmem
        simp only [this, Bool.not_true, Bool.and_false]
      · have hl' : lost d = false := by simpa using hl
        have hsome := h2 d (List.mem_cons_self _ _) hl'
        cases hv : dlookup valid d with
        | none => rw [hv] at hsome; simp at hsome
        | some w => simp [hv]
    simp only [valid_loop2, hcond, Bool.false_eq_true, if_false]
    exact ih miss0 (fun x hx => h1 x (List.mem_cons_of_mem _ hx))
      (fun x hx => h2 x (List.mem_cons_of_mem _ hx))

/-- Lines 313-327 over a group whose candidates all carry the original chunk
content: every expected block is accepted with that content and nothing is
recorded missing. -/
theorem majority_loop_spec (staged : List Blk) (cs : List Bytes) :
    ∀ (ds : List Nat) (st : RState) (miss0 : List Nat),
      (∀ d ∈ ds, get_data_blocks staged d ≠ []) →
      (∀ d ∈ ds, ∀ s ∈ get_data_blocks staged d, s.content = cs.getD (d - 1) []) →
      ∃ st2, majority_loop (ds.map (fun d => (d, get_data_blocks staged d))) st miss0 =
          (st2, miss0) ∧
        st2.crashed = st.crashed ∧
        st2.missing_data = st.missing_data ∧
        st2.missing_metadata = st.missing_metadata ∧
        ∀ n, dlookup st2.valid_blocks n =
          if n ∈ ds then some (cs.getD (n - 1) []) else dlookup st.valid_blocks n := by
  intro ds
  induction ds with
  | nil =>
    intro st miss0 _ _
    exact ⟨st, rfl, rfl, rfl, rfl, fun n => by rw [if_neg (by simp)]⟩
  | cons d ds ih =>
    intro st miss0 hne hcont
    have hdne := hne d (List.mem_cons_self _ _)
    obtain ⟨c0, cl, hceq⟩ := List.exists_cons_of_ne_nil hdne
    obtain ⟨pick, hmax, hpmem⟩ := max_by_count_mem (get_data_blocks staged d) hdne
    obtain ⟨hpst, hbt, hnum⟩ := get_data_blocks_mem staged d pick hpmem
    have hpc : pick.content = cs.getD (d - 1) [] :=
      hcont d (List.mem_cons_self _ _) pick hpmem
    rw [hceq] at hmax
    rw [List.map_cons, hceq]
    have hstep : majority_loop
        ((d, c0 :: cl) :: ds.map (fun d => (d, get_data_blocks staged d))) st miss0 =
        majority_loop (ds.map (fun d => (d, get_data_blocks staged d)))
          { st with valid_blocks := dinsert st.valid_blocks pick.number pick.content }
          miss0 := by
      simp only [majority_loop, hmax]
    rw [hstep]
    obtain ⟨st2, heq, hcr2, hmd2, hmm2, hlook⟩ :=
      ih { st with valid_blocks := dinsert st.valid_blocks pick.number pick.content }
        miss0 (fun x hx => hne x (List.mem_cons_of_mem _ hx))
        (fun x hx => hcont x (List.mem_cons_of_mem _ hx))
    refine ⟨st2, heq, hcr2, hmd2, hmm2, ?_⟩
    intro n
    rw [hlook n]
    by_cases hc : n ∈ ds
    · rw [if_pos hc, if_pos (List.mem_cons_of_mem _ hc)]
    · rw [if_neg hc]
      rw [dlookup_dinsert st.valid_blocks pick.number pick.content n, hnum, hpc]
      by_cases hnd : n = d
      · rw [if_pos hnd, if_pos (by rw [hnd]; exact List.mem_cons_self _ _), hnd]
      · rw [if_neg hnd, if_neg (fun hcon => by
          rcases List.mem_cons.mp hcon with h1 | h1
          · exact hnd h1
          · exact hc h1)]

theorem group_range_bounds (V N g d : Nat) (hd : d ∈ group_range V N g) :
    1 ≤ d ∧ d ≤ N := by
  rcases (group_range_mem V N g d).mp hd with ⟨h1, _, h3⟩
  omega

/-- Phase C for one mapping entry, under the healthy-candidate hypotheses:
the group contributes its missing-block record, fills `valid_blocks` with the
group's surviving chunks, records the group in `missing_metadata` exactly
when its metadata is absent or unparseable, and never crashes. -/
theorem process_group_spec (hashFn : Bytes → Bytes) (V : Nat) (cs : List Bytes)
    (staged : List Blk) (lost : Nat → Bool) (g : Nat) (st : RState)
    (hV : 1 ≤ V)
    (hcr : st.crashed = false)
    (H2 : ∀ n, 1 ≤ n → n ≤ cs.length → ∀ s ∈ get_data_blocks staged n,
        s.content = cs.getD (n - 1) [])
    (H3 : ∀ n, 1 ≤ n → n ≤ cs.length → lost n = false →
        get_data_blocks staged n ≠ [])
    (H4 : ∀ n, 1 ≤ n → n ≤ cs.length → lost n = true →
        get_data_blocks staged n = [])
    (H5 : ∀ g2 p, 1 ≤ g2 → g2 ≤ block_number cs.length V →
        meta_path_of staged g2 = some p →
        decodeMeta p.content = some (group_meta hashFn cs V g2))
    (H6 : ∀ n, 1 ≤ n → n ≤ cs.length → lost n = true →
        ∃ p, meta_path_of staged (group_of V n) = some p) :
    ∃ st2, process_group hashFn (entry_of staged cs.length V g) st = st2 ∧
      st2.crashed = false ∧
      st2.missing_data = st.missing_data ++
        [(g, if 1 ≤ g ∧ g ≤ block_number cs.length V then
            (group_range V cs.length g).filter lost else [])] ∧
      st2.missing_metadata = st.missing_metadata ++
        (if dMeta staged g = none then [g] else []) ∧
      (∀ n, n ∈ group_range V cs.length g → lost n = false →
        1 ≤ g → g ≤ block_number cs.length V →
        dlookup st2.valid_blocks n = some (cs.getD (n - 1) [])) ∧
      (∀ n, dlookup st2.valid_blocks n = dlookup st.valid_blocks n ∨
        (1 ≤ n ∧ n ≤ cs.length ∧ lost n = false ∧
          dlookup st2.valid_blocks n = some (cs.getD (n - 1) []))) := by
  cases hp : meta_path_of staged g with
  | none =>
    have hdm : dMeta staged g = none := by unfold dMeta; rw [hp]
    by_cases hir : 1 ≤ g ∧ g ≤ block_number cs.length V
    · have hnl : ∀ d ∈ group_range V cs.length g, lost d = false := by
        intro d hd
        by_cases hld : lost d = true
        · obtain ⟨hd1, hdN⟩ := group_range_bounds V cs.length g d hd
          obtain ⟨p, hp2⟩ := H6 d hd1 hdN hld
          rw [group_of_range V cs.length g d hV hir.1 hd] at hp2
          rw [hp2] at hp
          cases hp
        · simpa using hld
      obtain ⟨st2, heq, hcr2, hmd2, hmm2, hlook⟩ :=
        majority_loop_spec staged cs (group_range V cs.length g)
          { st with missing_metadata := st.missing_metadata ++ [g] } []
          (fun d hd => by
            obtain ⟨hd1, hdN⟩ := group_range_bounds V cs.length g d hd
            exact H3 d hd1 hdN (hnl d hd))
          (fun d hd => by
            obtain ⟨hd1, hdN⟩ := group_range_bounds V cs.length g d hd
            exact H2 d hd1 hdN)
      have hred : process_group hashFn (entry_of staged cs.length V g) st =
          { st2 with missing_data := st2.missing_data ++ [(g, [])] } := by
        simp only [process_group, entry_of, hp]
        rw [if_neg (by simp [hcr]), if_pos hir, heq]
        rw [if_neg (by simp only []; rw [hcr2]; simp [hcr])]
      refine ⟨_, hred, ?_, ?_, ?_, ?_, ?_⟩
      · show st2.crashed = false
        rw [hcr2]; exact hcr
      · show st2.missing_data ++ [(g, [])] = _
        rw [hmd2, if_pos hir]
        have hfe : (group_range V cs.length g).filter lost = [] :=
          List.filter_eq_nil_iff.mpr (fun a ha hla => by rw [hnl a ha] at hla; cases hla)
        rw [hfe]
      · show st2.missing_metadata = _
        rw [hmm2, if_pos hdm]
      · intro n hn hnl2 _ _
        rw [hlook n, if_pos hn]
      · intro n
        rw [hlook n]
        by_cases hn : n ∈ group_range V cs.length g
        · obtain ⟨hn1, hnN⟩ := group_range_bounds V cs.length g n hn
          rw [if_pos hn]
          exact Or.inr ⟨hn1, hnN, hnl n hn, rfl⟩
        · rw [if_neg hn]
          exact Or.inl rfl
    · have hred : process_group hashFn (entry_of staged cs.length V g) st =
          { st with
            missing_metadata := st.missing_metadata ++ [g],
            missing_data := st.missing_data ++ [(g, [])] } := by
        simp only [process_group, entry_of, hp]
        rw [if_neg (by simp [hcr]), if_neg hir]
        rw [show majority_loop ([] : List (Nat × List Blk))
            { st with missing_metadata := st.missing_metadata ++ [g] } [] =
            ({ st with missing_metadata := st.missing_metadata ++ [g] }, []) from rfl]
        rw [if_neg (by simp [hcr])]
      refine ⟨_, hred, hcr, ?_, ?_, ?_, fun n => Or.inl rfl⟩
      · show st.missing_data ++ [(g, [])] = _
        rw [if_neg hir]
      · show st.missing_metadata ++ [g] = _
        rw [if_pos hdm]
      · intro n _ _ hg1 hgG
        exact absurd ⟨hg1, hgG⟩ hir
  | some p =>
    have hdm : dMeta staged g = decodeMeta p.content := by unfold dMeta; rw [hp]
    by_cases hir : 1 ≤ g ∧ g ≤ block_number cs.length V
    · have hdec : decodeMeta p.content = some (group_meta hashFn cs V g) :=
        H5 g p hir.1 hir.2 hp
      obtain ⟨st2, heq1, hcr2, hmd2, hmm2, hlook⟩ :=
        valid_loop1_spec hashFn cs V g staged lost (group_range V cs.length g) st []
          hcr (fun d hd => hd)
          (fun d hd hld => by
            obtain ⟨hd1, hdN⟩ := group_range_bounds V cs.length g d hd
            exact H4 d hd1 hdN hld)
          (fun d hd hld => by
            obtain ⟨hd1, hdN⟩ := group_range_bounds V cs.length g d hd
            exact H3 d hd1 hdN hld)
          (fun d hd => by
            obtain ⟨hd1, hdN⟩ := group_range_bounds V cs.length g d hd
            exact H2 d hd1 hdN)
      have hloop2 : valid_loop2 st2.valid_blocks
          ((group_range V cs.length g).map (fun d => (d, get_data_blocks staged d)))
          ((group_range V cs.length g).filter lost) =
          (group_range V cs.length g).filter lost :=
        valid_loop2_spec staged st2.valid_blocks lost (group_range V cs.length g) _
          (fun d hd hld => List.mem_filter.mpr ⟨hd, hld⟩)
          (fun d hd hld => by rw [hlook d, if_pos ⟨hd, hld⟩]; rfl)
      have hred : process_group hashFn (entry_of staged cs.length V g) st =
          { st2 with missing_data := st2.missing_data ++
              [(g, (group_range V cs.length g).filter lost)] } := by
        simp only [process_group, entry_of, hp, hdec]
        rw [if_neg (by simp [hcr]), if_pos hir, heq1]
        rw [if_neg (by simp only []; rw [hcr2]; simp [hcr])]
        simp only [List.nil_append]
        rw [hloop2]
      refine ⟨_, hred, hcr2, ?_, ?_, ?_, ?_⟩
      · show st2.missing_data ++ _ = _
        rw [hmd2, if_pos hir]
      · show st2.missing_metadata = _
        rw [hmm2, if_neg (by rw [hdm, hdec]; simp), List.append_nil]
      · intro n hn hnl2 _ _
        rw [hlook n, if_pos ⟨hn, hnl2⟩]
      · intro n
        rw [hlook n]
        by_cases hc : n ∈ group_range V cs.length g ∧ lost n = false
        · obtain ⟨hn1, hnN⟩ := group_range_bounds V cs.length g n hc.1
          rw [if_pos hc]
          exact Or.inr ⟨hn1, hnN, hc.2, rfl⟩
        · rw [if_neg hc]
          exact Or.inl rfl
    · cases hdec : decodeMeta p.content with
      | some meta =>
        have hred : process_group hashFn (entry_of staged cs.length V g) st =
            { st with missing_data := st.missing_data ++ [(g, [])] } := by
          simp only [process_group, entry_of, hp, hdec]
          rw [if_neg (by simp [hcr])]
          rw [if_neg hir]
          rw [show valid_loop1 hashFn meta ([] : List (Nat × List Blk)) st [] =
              (st, []) from rfl]
          rw [if_neg (by simp [hcr])]
          rfl
        refine ⟨_, hred, hcr, ?_, ?_, ?_, fun n => Or.inl rfl⟩
        · show st.missing_data ++ [(g, [])] = _
          rw [if_neg hir]
        · show st.missing_metadata = _
          rw [if_neg (by rw [hdm, hdec]; simp), List.append_nil]
        · intro n _ _ hg1 hgG
          exact absurd ⟨hg1, hgG⟩ hir
      | none =>
        have hred : process_group hashFn (entry_of staged cs.length V g) st =
            { st with
              missing_metadata := st.missing_metadata ++ [g],
              missing_data := st.missing_data ++ [(g, [])] } := by
          simp only [process_group, entry_of, hp, hdec]
          rw [if_neg (by simp [hcr]), if_neg hir]
          rw [show majority_loop ([] : List (Nat × List Blk))
              { st with missing_metadata := st.missing_metadata ++ [g] } [] =
              ({ st with missing_metadata := st.missing_metadata ++ [g] }, []) from rfl]
          rw [if_neg (by simp [hcr])]
        refine ⟨_, hred, hcr, ?_, ?_, ?_, fun n => Or.inl rfl⟩
        · show st.missing_data ++ [(g, [])] = _
          rw [if_neg hir]
        · show st.missing_metadata ++ [g] = _
          rw [if_pos (by rw [hdm, hdec])]
        · intro n _ _ hg1 hgG
          exact absurd ⟨hg1, hgG⟩ hir

/-- Phase C over a list of mapping keys: the fold never crashes, records one
missing-block entry per key, records metadata-less keys, and accepts every
surviving chunk of every processed in-range group. -/
theorem phaseC_fold_spec (hashFn : Bytes → Bytes) (V : Nat) (cs : List Bytes)
    (staged : List Blk) (lost : Nat → Bool) (hV : 1 ≤ V)
    (H2 : ∀ n, 1 ≤ n → n ≤ cs.length → ∀ s ∈ get_data_blocks staged n,
        s.content = cs.getD (n - 1) [])
    (H3 : ∀ n, 1 ≤ n → n ≤ cs.length → lost n = false →
        get_data_blocks staged n ≠ [])
    (H4 : ∀ n, 1 ≤ n → n ≤ cs.length → lost n = true →
        get_data_blocks staged n = [])
    (H5 : ∀ g2 p, 1 ≤ g2 → g2 ≤ block_number cs.length V →
        meta_path_of staged g2 = some p →
        decodeMeta p.content = some (group_meta hashFn cs V g2))
    (H6 : ∀ n, 1 ≤ n → n ≤ cs.length → lost n = true →
        ∃ p, meta_path_of staged (group_of V n) = some p) :
    ∀ (gl : List Nat) (st : RState), st.crashed = false →
      ∃ st2, (gl.map (entry_of staged cs.length V)).foldl
          (fun st ge => process_group hashFn ge st) st = st2 ∧
        st2.crashed = false ∧
        st2.missing_data = st.missing_data ++ gl.map (fun g =>
          (g, if 1 ≤ g ∧ g ≤ block_number cs.length V then
              (group_range V cs.length g).filter lost else [])) ∧
        st2.missing_metadata = st.missing_metadata ++
          gl.filter (fun g => (dMeta staged g).isNone) ∧
        (∀ n, 1 ≤ n → n ≤ cs.length → lost n = false → group_of V n ∈ gl →
          dlookup st2.valid_blocks n = some (cs.getD (n - 1) [])) ∧
        (∀ n, dlookup st2.valid_blocks n = dlookup st.valid_blocks n ∨
          (1 ≤ n ∧ n ≤ cs.length ∧ lost n = false ∧
            dlookup st2.valid_blocks n = some (cs.getD (n - 1) []))) := by
  intro gl
  induction gl with
  | nil =>
    intro st hcr
    refine ⟨st, rfl, hcr, by simp, by simp, ?_, fun n => Or.inl rfl⟩
    intro n _ _ _ hg
    cases hg
  | cons g gl ih =>
    intro st hcr
    obtain ⟨st1, heq1, hcr1, hmd1, hmm1, hlookA, hlookB⟩ :=
      process_group_spec hashFn V cs staged lost g st hV hcr H2 H3 H4 H5 H6
    obtain ⟨st2, heq2, hcr2, hmd2, hmm2, hA, hB⟩ := ih st1 hcr1
    refine ⟨st2, ?_, hcr2, ?_, ?_, ?_, ?_⟩
    · rw [List.map_cons, List.foldl_cons, heq1, heq2]
    · rw [hmd2, hmd1, List.map_cons, List.append_assoc]
      rfl
    · rw [hmm2, hmm1]
      by_cases hdm : dMeta staged g = none
      · rw [if_pos hdm, List.filter_cons_of_pos (by simp [hdm]), List.append_assoc]
        rfl
      · rw [if_neg hdm, List.filter_cons_of_neg (by simp [hdm]), List.append_nil]
    · intro n h1 hN hl hgmem
      rcases List.mem_cons.mp hgmem with hg | hg
      · by_cases hgin : group_of V n ∈ gl
        · exact hA n h1 hN hl hgin
        · obtain ⟨hc1, hc2, hc3⟩ := group_of_cover V cs.length n hV h1 hN
          rw [hg] at hc1 hc2 hc3
          have hv1 := hlookA n hc3 hl hc1 hc2
          rcases hB n with hB1 | hB1
          · rw [hB1]; exact hv1
          · exact hB1.2.2.2
      · exact hA n h1 hN hl hg
    · intro n
      rcases hB n with h1 | h1
      · rcases hlookB n with h2 | h2
        · exact Or.inl (h1.trans h2)
        · exact Or.inr ⟨h2.1, h2.2.1, h2.2.2.1, h1.trans h2.2.2.2⟩
      · exact Or.inr h1

/-! ### Phase D: XOR repair -/

/-- Lines 366-370: folding the surviving blocks of a group into the parity. -/
theorem repair_fold_spec (valid : List (Nat × Bytes)) (n0 : Nat)
    (chunkf : Nat → Bytes) :
    ∀ (ds : List Nat) (acc : Bytes),
      (∀ d ∈ ds, d ≠ n0 → dlookup valid d = some (chunkf d)) →
      repair_fold valid n0 acc ds =
        some (((ds.filter (fun d => !(d == n0))).map chunkf).foldl xor_strings acc) := by
  intro ds
  induction ds with
  | nil => intro acc _; rfl
  | cons d rest ih =>
    intro acc h
    by_cases hd : d = n0
    · have hb : (d == n0) = true := beq_iff_eq.mpr hd
      have hstep : repair_fold valid n0 acc (d :: rest) =
          repair_fold valid n0 acc rest := by
        simp [repair_fold, hb]
      rw [hstep, ih acc (fun x hx hxn => h x (List.mem_cons_of_mem _ hx) hxn),
        List.filter_cons_of_neg (by simp [hd])]
    · have hb : (d == n0) = false := by simp [hd]
      have hlk := h d (List.mem_cons_self _ _) hd
      have hstep : repair_fold valid n0 acc (d :: rest) =
          repair_fold valid n0 (xor_strings acc (chunkf d)) rest := by
        simp [repair_fold, hb, hlk]
      rw [hstep, ih _ (fun x hx hxn => h x (List.mem_cons_of_mem _ hx) hxn),
        List.filter_cons_of_pos (by simp [hd]), List.map_cons, List.foldl_cons]

/-- Phase D over a list of mapping keys whose missing-block records are as
phase C left them: with at most one lost block per group, metadata present
for lost groups, and lost blocks of maximal length in their group, every lost
block is rebuilt with its original chunk content and the run is never marked
corrupted. -/
theorem phaseD_fold_spec (hashFn : Bytes → Bytes) (V : Nat) (cs : List Bytes)
    (staged : List Blk) (lost : Nat → Bool) (hV : 1 ≤ V)
    (H5 : ∀ g2 p, 1 ≤ g2 → g2 ≤ block_number cs.length V →
        meta_path_of staged g2 = some p →
        decodeMeta p.content = some (group_meta hashFn cs V g2))
    (H6 : ∀ n, 1 ≤ n → n ≤ cs.length → lost n = true →
        ∃ p, meta_path_of staged (group_of V n) = some p)
    (H7 : ∀ g2, 1 ≤ g2 → g2 ≤ block_number cs.length V →
        ((group_range V cs.length g2).filter lost).length ≤ 1)
    (H8 : ∀ n m, 1 ≤ n → n ≤ cs.length → lost n = true →
        m ∈ group_range V cs.length (group_of V n) →
        (cs.getD (m - 1) []).length ≤ (cs.getD (n - 1) []).length) :
    ∀ (gl : List Nat) (st : RState) (rep0 : List Nat),
      st.crashed = false →
      (∀ g ∈ gl, dlookup st.missing_data g =
        some (if 1 ≤ g ∧ g ≤ block_number cs.length V then
          (group_range V cs.length g).filter lost else [])) →
      (∀ g2, g2 ∈ st.missing_metadata → dMeta staged g2 = none) →
      (∀ n, 1 ≤ n → n ≤ cs.length → lost n = false →
        dlookup st.valid_blocks n = some (cs.getD (n - 1) [])) →
      ∃ st2 rep2,
        phaseD hashFn V cs.length (gl.map (entry_of staged cs.length V)) st rep0 =
          (st2, false, rep2) ∧
        st2.crashed = false ∧
        (∀ n, 1 ≤ n → n ≤ cs.length → lost n = false →
          dlookup st2.valid_blocks n = some (cs.getD (n - 1) [])) ∧
        (∀ n, 1 ≤ n → n ≤ cs.length → lost n = true → group_of V n ∈ gl →
          dlookup st2.valid_blocks n = some (cs.getD (n - 1) [])) ∧
        (∀ n, dlookup st2.valid_blocks n = dlookup st.valid_blocks n ∨
          dlookup st2.valid_blocks n = some (cs.getD (n - 1) [])) := by
  intro gl
  induction gl with
  | nil =>
    intro st rep0 hcr _ _ hR1
    refine ⟨st, rep0, rfl, hcr, hR1, ?_, fun n => Or.inl rfl⟩
    intro n _ _ _ hg
    cases hg
  | cons g gl ih =>
    intro st rep0 hcr hmd hmm hR1
    have hmdg := hmd g (List.mem_cons_self _ _)
    by_cases hir : 1 ≤ g ∧ g ≤ block_number cs.length V
    · rw [if_pos hir] at hmdg
      cases hfl : (group_range V cs.length g).filter lost with
      | nil =>
        rw [hfl] at hmdg
        have hstep : phaseD hashFn V cs.length
            ((g :: gl).map (entry_of staged cs.length V)) st rep0 =
            phaseD hashFn V cs.length (gl.map (entry_of staged cs.length V)) st rep0 := by
          rw [List.map_cons]
          simp [phaseD, entry_of, hmdg]
        rw [hstep]
        obtain ⟨st2, rep2, heq, hcr2, hA, hB, hC⟩ := ih st rep0 hcr
          (fun x hx => hmd x (List.mem_cons_of_mem _ hx)) hmm hR1
        refine ⟨st2, rep2, heq, hcr2, hA, ?_, hC⟩
        intro n hn1 hnN hl hgmem
        rcases List.mem_cons.mp hgmem with hgg | hgg
        · obtain ⟨hc1, hc2, hc3⟩ := group_of_cover V cs.length n hV hn1 hnN
          rw [hgg] at hc3
          have : n ∈ (group_range V cs.length g).filter lost :=
            List.mem_filter.mpr ⟨hc3, hl⟩
          rw [hfl] at this
          cases this
        · exact hB n hn1 hnN hl hgg
      | cons n0 tl =>
        have htl : tl = [] := by
          have hlen := H7 g hir.1 hir.2
          rw [hfl] at hlen
          simp only [List.length_cons] at hlen
          exact List.length_eq_zero.mp (by omega)
        subst htl
        rw [hfl] at hmdg
        have hn0f : n0 ∈ (group_range V cs.length g).filter lost := by
          rw [hfl]; exact List.mem_cons_self _ _
        have hn0mem : n0 ∈ group_range V cs.length g := List.mem_of_mem_filter hn0f
        have hlost0 : lost n0 = true := List.of_mem_filter hn0f
        obtain ⟨hn01, hn0N⟩ := group_range_bounds V cs.length g n0 hn0mem
        have hgof : group_of V n0 = g :=
          group_of_range V cs.length g n0 hV hir.1 hn0mem
        obtain ⟨p, hp⟩ := H6 n0 hn01 hn0N hlost0
        rw [hgof] at hp
        have hdec : decodeMeta p.content = some (group_meta hashFn cs V g) :=
          H5 g p hir.1 hir.2 hp
        have hgnm : g ∉ st.missing_metadata := fun hmem => by
          have := hmm g hmem
          simp [dMeta, hp, hdec] at this
        have hcont : st.missing_metadata.contains g = false := by
          simp [List.contains]
          exact hgnm
        have hclne : group_chunks cs V g ≠ [] := by
          unfold group_chunks
          rw [Ne, List.map_eq_nil]
          exact group_range_ne_nil V cs.length g hV hir.1 hir.2
        have hx0 : validator_xor (group_chunks cs V g) =
            some ((group_chunks cs V g).foldl xor_strings []) :=
          validator_xor_ne_nil _ hclne
        have hlkh : dlookup (group_hashes hashFn cs V g) n0 =
            some (hashFn (cs.getD (n0 - 1) [])) := by
          unfold group_hashes
          exact dlookup_map_self _ _ _ hn0mem
        obtain ⟨l1, l2, hsplit, hfilter⟩ :=
          nodup_split_filter_ne (group_range V cs.length g) n0
            (group_range_nodup V cs.length g) hn0mem
        have hrf : repair_fold st.valid_blocks n0
            ((group_chunks cs V g).foldl xor_strings [])
            (group_range V cs.length g) = some (cs.getD (n0 - 1) []) := by
          rw [repair_fold_spec st.valid_blocks n0 (fun d => cs.getD (d - 1) [])
            (group_range V cs.length g) _
            (fun d hd hdn => by
              have hld : lost d = false := by
                by_cases hc : lost d = true
                · exact absurd (by
                    have : d ∈ (group_range V cs.length g).filter lost :=
                      List.mem_filter.mpr ⟨hd, hc⟩
                    rw [hfl] at this
                    simpa using this) hdn
                · simpa using hc
              obtain ⟨hd1, hdN⟩ := group_range_bounds V cs.length g d hd
              exact hR1 d hd1 hdN hld)]
          congr 1
          have hchunks : group_chunks cs V g =
              l1.map (fun d => cs.getD (d - 1) []) ++
                cs.getD (n0 - 1) [] :: l2.map (fun d => cs.getD (d - 1) []) := by
            unfold group_chunks
            rw [hsplit, List.map_append, List.map_cons]
          rw [hfilter, List.map_append, hchunks, xor_reconstruction_split]
          rw [← hchunks]
          apply padRight_of_le
          apply maxLen_le
          intro c hc
          rcases List.mem_map.mp (by
            unfold group_chunks at hc
            exact hc) with ⟨m, hm, hcm⟩
          rw [← hcm]
          have := H8 n0 m hn01 hn0N hlost0 (by rw [hgof]; exact hm)
          exact this
        have hstep : phaseD hashFn V cs.length
            ((g :: gl).map (entry_of staged cs.length V)) st rep0 =
            phaseD hashFn V cs.length (gl.map (entry_of staged cs.length V))
              { st with valid_blocks :=
                  dinsert st.valid_blocks n0 (cs.getD (n0 - 1) []) }
              (rep0 ++ [n0]) := by
          rw [List.map_cons]
          simp only [phaseD, entry_of, hmdg, Option.getD_some, List.length_cons,
            List.length_nil, hcont, hp, hdec, group_meta, hx0, List.getD_cons_zero,
            Nat.zero_add]
          rw [if_neg (by omega), if_pos (by decide), if_neg (by simp)]
          rw [hrf, hlkh]
          simp
        rw [hstep]
        obtain ⟨st2, rep2, heq, hcr2, hA, hB, hC⟩ := ih
          { st with valid_blocks := dinsert st.valid_blocks n0 (cs.getD (n0 - 1) []) }
          (rep0 ++ [n0]) hcr
          (fun x hx => hmd x (List.mem_cons_of_mem _ hx)) hmm
          (fun n hn1 hnN hl => by
            have hlkv := dlookup_dinsert st.valid_blocks n0 (cs.getD (n0 - 1) []) n
            have hne : n ≠ n0 := fun he => by rw [he, hlost0] at hl; cases hl
            show dlookup (dinsert st.valid_blocks n0 (cs.getD (n0 - 1) [])) n = _
            rw [hlkv, if_neg hne]
            exact hR1 n hn1 hnN hl)
        have hsti : ∀ n, dlookup (dinsert st.valid_blocks n0 (cs.getD (n0 - 1) [])) n =
            if n = n0 then some (cs.getD (n0 - 1) []) else dlookup st.valid_blocks n :=
          fun n => dlookup_dinsert st.valid_blocks n0 (cs.getD (n0 - 1) []) n
        refine ⟨st2, rep2, heq, hcr2, hA, ?_, ?_⟩
        · intro n hn1 hnN hl hgmem
          rcases List.mem_cons.mp hgmem with hgg | hgg
          · obtain ⟨hc1, hc2, hc3⟩ := group_of_cover V cs.length n hV hn1 hnN
            rw [hgg] at hc3
            have hnf : n ∈ (group_range V cs.length g).filter lost :=
              List.mem_filter.mpr ⟨hc3, hl⟩
            rw [hfl] at hnf
            have hnn0 : n = n0 := by simpa using hnf
            subst hnn0
            rcases hC n with hC1 | hC1
            · rw [hC1, hsti n, if_pos rfl]
            · exact hC1
          · exact hB n hn1 hnN hl hgg
        · intro n
          rcases hC n with hC1 | hC1
          · rw [hC1, hsti n]
            by_cases hnn : n = n0
            · rw [if_pos hnn, hnn]
              exact Or.inr rfl
            · rw [if_neg hnn]
              exact Or.inl rfl
          · exact Or.inr hC1
    · rw [if_neg hir] at hmdg
      have hstep : phaseD hashFn V cs.length
          ((g :: gl).map (entry_of staged cs.length V)) st rep0 =
          phaseD hashFn V cs.length (gl.map (entry_of staged cs.length V)) st rep0 := by
        rw [List.map_cons]
        simp [phaseD, entry_of, hmdg]
      rw [hstep]
      obtain ⟨st2, rep2, heq, hcr2, hA, hB, hC⟩ := ih st rep0 hcr
        (fun x hx => hmd x (List.mem_cons_of_mem _ hx)) hmm hR1
      refine ⟨st2, rep2, heq, hcr2, hA, ?_, hC⟩
      intro n hn1 hnN hl hgmem
      rcases List.mem_cons.mp hgmem with hgg | hgg
      · obtain ⟨hc1, hc2, hc3⟩ := group_of_cover V cs.length n hV hn1 hnN
        rw [hgg] at hc1 hc2
        exact absurd ⟨hc1, hc2⟩ hir
      · exact hB n hn1 hnN hl hgg

/-! ### Phase E assembly and the master restore theorem -/

theorem assemble_fold (valid : List (Nat × Bytes)) :
    ∀ (cs : List Bytes) (start : Nat) (a : Bytes),
      (∀ i, i < cs.length → dlookup valid (start + i) = some (cs.getD i [])) →
      (List.range' start cs.length).foldl (fun acc n =>
        match acc, dlookup valid n with
        | some a, some c => some (a ++ c)
        | _, _ => none) (some a) = some (a ++ cs.flatten) := by
  intro cs
  induction cs with
  | nil =>
    intro start a _
    simp
  | cons c rest ih =>
    intro start a h
    rw [List.length_cons, List.range'_succ, List.foldl_cons]
    have h0 : dlookup valid start = some c := by
      have := h 0 (by simp)
      simpa using this
    rw [h0]
    have hrest : ∀ i, i < rest.length →
        dlookup valid (start + 1 + i) = some (rest.getD i []) := by
      intro i hi
      have := h (i + 1) (by simp; omega)
      rw [show start + (i + 1) = start + 1 + i from by omega] at this
      simpa using this
    have := ih (start + 1) (a ++ c) hrest
    rw [this, List.flatten_cons, List.append_assoc]

theorem assemble_spec (valid : List (Nat × Bytes)) (cs : List Bytes)
    (h : ∀ n, 1 ≤ n → n ≤ cs.length → dlookup valid n = some (cs.getD (n - 1) [])) :
    assemble valid cs.length = some cs.flatten := by
  unfold assemble
  have := assemble_fold valid cs 1 []
    (fun i hi => by
      have := h (1 + i) (by omega) (by omega)
      rw [show 1 + i - 1 = i from by omega] at this
      exact this)
  rw [this, List.nil_append]

/-- The master restore theorem: over a staged state whose surviving data
candidates all carry the original chunks, whose present in-range metadata
decodes to the distribute-side group metadata, and whose losses are at most
one block per parity group, each lost with its group metadata present and a
maximal-length content in its group, `RestoreThread.run` repairs every lost
block, writes the concatenation of the chunks and exits successfully. -/
theorem restore_correct (hashFn : Bytes → Bytes) (V : Nat) (cs : List Bytes)
    (staged : List Blk) (lost : Nat → Bool) (hV : 1 ≤ V)
    (H2 : ∀ n, 1 ≤ n → n ≤ cs.length → ∀ s ∈ get_data_blocks staged n,
        s.content = cs.getD (n - 1) [])
    (H3 : ∀ n, 1 ≤ n → n ≤ cs.length → lost n = false →
        get_data_blocks staged n ≠ [])
    (H4 : ∀ n, 1 ≤ n → n ≤ cs.length → lost n = true →
        get_data_blocks staged n = [])
    (H5 : ∀ g2 p, 1 ≤ g2 → g2 ≤ block_number cs.length V →
        meta_path_of staged g2 = some p →
        decodeMeta p.content = some (group_meta hashFn cs V g2))
    (H6 : ∀ n, 1 ≤ n → n ≤ cs.length → lost n = true →
        ∃ p, meta_path_of staged (group_of V n) = some p)
    (H7 : ∀ g2, 1 ≤ g2 → g2 ≤ block_number cs.length V →
        ((group_range V cs.length g2).filter lost).length ≤ 1)
    (H8 : ∀ n m, 1 ≤ n → n ≤ cs.length → lost n = true →
        m ∈ group_range V cs.length (group_of V n) →
        (cs.getD (m - 1) []).length ≤ (cs.getD (n - 1) []).length) :
    (restore_run hashFn cs.length V staged).written = some cs.flatten ∧
    (restore_run hashFn cs.length V staged).success = true ∧
    (restore_run hashFn cs.length V staged).corrupted = false ∧
    (restore_run hashFn cs.length V staged).crashed = false := by
  obtain ⟨stC, heqC, hcrC, hmdC, hmmC, hAC, hBC⟩ :=
    phaseC_fold_spec hashFn V cs staged lost hV H2 H3 H4 H5 H6
      (group_keys staged cs.length V) ⟨[], [], [], none, false⟩ rfl
  have hmdC' : ∀ g ∈ group_keys staged cs.length V, dlookup stC.missing_data g =
      some (if 1 ≤ g ∧ g ≤ block_number cs.length V then
        (group_range V cs.length g).filter lost else []) := by
    intro g hg
    rw [hmdC]
    show dlookup ([] ++ _) g = _
    rw [List.nil_append]
    exact dlookup_map_self
      (fun g => if 1 ≤ g ∧ g ≤ block_number cs.length V then
        (group_range V cs.length g).filter lost else []) _ g hg
  have hmmC' : ∀ g2, g2 ∈ stC.missing_metadata → dMeta staged g2 = none := by
    intro g2 hg2
    rw [hmmC] at hg2
    have hg2' : g2 ∈ (group_keys staged cs.length V).filter
        (fun g => (dMeta staged g).isNone) := by
      simpa using hg2
    have hpf := @List.of_mem_filter Nat (fun g => (dMeta staged g).isNone) g2 _ hg2'
    simpa using hpf
  have hR1C : ∀ n, 1 ≤ n → n ≤ cs.length → lost n = false →
      dlookup stC.valid_blocks n = some (cs.getD (n - 1) []) := by
    intro n hn1 hnN hl
    obtain ⟨hc1, hc2, _⟩ := group_of_cover V cs.length n hV hn1 hnN
    exact hAC n hn1 hnN hl (mem_group_keys staged cs.length V _ hc1 hc2)
  obtain ⟨stD, repD, heqD, hcrD, hAD, hBD, _⟩ :=
    phaseD_fold_spec hashFn V cs staged lost hV H5 H6 H7 H8
      (group_keys staged cs.length V) stC [] hcrC hmdC' hmmC' hR1C
  have hassemble : assemble stD.valid_blocks cs.length = some cs.flatten := by
    apply assemble_spec
    intro n hn1 hnN
    by_cases hl : lost n = true
    · obtain ⟨hc1, hc2, _⟩ := group_of_cover V cs.length n hV hn1 hnN
      exact hBD n hn1 hnN hl (mem_group_keys staged cs.length V _ hc1 hc2)
    · exact hAD n hn1 hnN (by simpa using hl)
  have hres : restore_run hashFn cs.length V staged =
      ⟨false, false, some cs.flatten, true, false, repD⟩ := by
    simp only [restore_run, build_mapping_eq_map]
    rw [heqC]
    rw [if_neg (by simp [hcrC])]
    rw [heqD]
    rw [if_neg (by simp [hcrD])]
    rw [if_neg (by simp)]
    rw [hassemble]
  rw [hres]
  exact ⟨rfl, rfl, rfl, rfl⟩

/-! ### From the distribute output to the staged state -/

theorem mem_sends_data (out : List Blk) (n : Nat) (b : Blk) (hb : b ∈ out)
    (ht : b.block_type = BType.data) (hn : b.number = n) :
    b.content ∈ sends_data out n := by
  unfold sends_data
  exact List.mem_map.mpr ⟨b, List.mem_filter.mpr ⟨hb, by simp [ht, hn]⟩, rfl⟩

theorem mem_sends_meta (out : List Blk) (g : Nat) (b : Blk) (hb : b ∈ out)
    (ht : b.block_type = BType.metadata) (hn : b.number = g) :
    b.content ∈ sends_meta out g := by
  unfold sends_meta
  exact List.mem_map.mpr ⟨b, List.mem_filter.mpr ⟨hb, by simp [ht, hn]⟩, rfl⟩

theorem sends_data_mem_exists (out : List Blk) (n : Nat) (h : sends_data out n ≠ []) :
    ∃ b ∈ out, b.block_type = BType.data ∧ b.number = n := by
  unfold sends_data at h
  cases hf : out.filter (fun b => b.block_type == BType.data && b.number == n) with
  | nil => rw [hf] at h; simp at h
  | cons b rest =>
    have hb : b ∈ out.filter (fun b => b.block_type == BType.data && b.number == n) := by
      rw [hf]; exact List.mem_cons_self _ _
    have hm := List.mem_filter.mp hb
    have hprop := hm.2
    simp only [Bool.and_eq_true, beq_iff_eq] at hprop
    exact ⟨b, hm.1, hprop.1, hprop.2⟩

/-- Every staged DATA candidate that originates from (a sub-list of) a
distribute run's sends carries the original chunk. -/
theorem staged_data_content_sub (ks : Nat → Nat) (hashFn : Bytes → Bytes)
    (f : Bytes) (bs D V P : Nat) (hbs : 1 ≤ bs) (hV : 1 ≤ V)
    (sends' : List Blk)
    (hsub : ∀ b ∈ sends', b ∈ (distribute_run ks hashFn (some f) bs D V P).sends) :
    ∀ n, 1 ≤ n → n ≤ (chunkify bs f).length →
      ∀ s ∈ get_data_blocks (stage_blocks ks sends') n,
        s.content = (chunkify bs f).getD (n - 1) [] := by
  intro n hn1 hnN s hs
  obtain ⟨hstag, hbt, hnum⟩ := get_data_blocks_mem _ n s hs
  obtain ⟨b, hb, hsb⟩ := mem_stage_blocks hstag
  have hbbt : b.block_type = BType.data := by rw [hsb] at hbt; exact hbt
  have hbn : b.number = n := by rw [hsb] at hnum; exact hnum
  have hmem := mem_sends_data _ n b (hsub b hb) hbbt hbn
  rw [distribute_run_data ks hashFn f bs D V P hbs hV n, if_pos ⟨hn1, hnN⟩] at hmem
  have hbc := List.eq_of_mem_replicate hmem
  rw [hsb]
  show decrypt ks b.content = _
  rw [hbc, decrypt_encrypt]

/-- A block number with at least one message in the staged sends has at
least one staged candidate file. -/
theorem staged_present_of_sends_data (ks : Nat → Nat) (sends' : List Blk) (n : Nat)
    (h : sends_data sends' n ≠ []) :
    get_data_blocks (stage_blocks ks sends') n ≠ [] := by
  obtain ⟨b, hb, hbt, hbn⟩ := sends_data_mem_exists sends' n h
  obtain ⟨x, hx, hkey⟩ := stage_blocks_key hb
  rw [sameKey_iff] at hkey
  have hxt : x.block_type = BType.data := hkey.2.1.trans hbt
  have hxn : x.number = n := hkey.2.2.trans hbn
  exact List.ne_nil_of_mem (List.mem_filter.mpr ⟨hx, by simp [hxt, hxn]⟩)

/-- A block number with no message among the staged sends has no staged
candidate file. -/
theorem staged_absent_of_sends_data (ks : Nat → Nat) (sends' : List Blk) (n : Nat)
    (h : sends_data sends' n = []) :
    get_data_blocks (stage_blocks ks sends') n = [] := by
  cases hq : get_data_blocks (stage_blocks ks sends') n with
  | nil => rfl
  | cons s rest =>
    exfalso
    have hs : s ∈ get_data_blocks (stage_blocks ks sends') n := by
      rw [hq]; exact List.mem_cons_self _ _
    obtain ⟨hstag, hbt, hnum⟩ := get_data_blocks_mem _ n s hs
    obtain ⟨b, hb, hsb⟩ := mem_stage_blocks hstag
    have hbbt : b.block_type = BType.data := by rw [hsb] at hbt; exact hbt
    have hbn : b.number = n := by rw [hsb] at hnum; exact hnum
    have hmem := mem_sends_data _ n b hb hbbt hbn
    rw [h] at hmem
    cases hmem

/-- Every staged metadata file of an in-range group that originates from (a
sub-list of) a distribute run's sends decodes to that group's metadata. -/
theorem staged_meta_content_sub (ks : Nat → Nat) (hashFn : Bytes → Bytes)
    (f : Bytes) (bs D V P : Nat) (hbs : 1 ≤ bs) (hV : 1 ≤ V)
    (sends' : List Blk)
    (hsub : ∀ b ∈ sends', b ∈ (distribute_run ks hashFn (some f) bs D V P).sends) :
    ∀ g p, 1 ≤ g → g ≤ block_number (chunkify bs f).length V →
      meta_path_of (stage_blocks ks sends') g = some p →
      decodeMeta p.content = some (group_meta hashFn (chunkify bs f) V g) := by
  intro g p hg1 hgG hmp
  have hpmem : p ∈ (get_meta_blocks (stage_blocks ks sends')).filter
      (fun s => s.number == g) := getLast?_mem hmp
  have hpf := List.mem_filter.mp hpmem
  have hpg : p.number = g := by simpa using hpf.2
  have hpm2 := List.mem_filter.mp hpf.1
  have hpt : p.block_type = BType.metadata := by simpa using hpm2.2
  obtain ⟨b, hb, hpb⟩ := mem_stage_blocks hpm2.1
  have hbt : b.block_type = BType.metadata := by rw [hpb] at hpt; exact hpt
  have hbg : b.number = g := by rw [hpb] at hpg; exact hpg
  have hmem := mem_sends_meta _ g b (hsub b hb) hbt hbg
  rw [distribute_meta_sends ks hashFn f bs D V P hbs hV g, List.mem_append] at hmem
  have hpc : p.content = decrypt ks b.content := by rw [hpb]; rfl
  rcases hmem with hm1 | hm2
  · by_cases hc : 1 ≤ g ∧ g ≤ (chunkify bs f).length / V
    · rw [if_pos hc] at hm1
      have hbc : b.content =
          encrypt ks (encodeMeta (group_meta hashFn (chunkify bs f) V g)) := by
        simpa using hm1
      rw [hpc, hbc, decrypt_encrypt, decodeMeta_encodeMeta]
    · rw [if_neg hc] at hm1
      cases hm1
  · by_cases hc : f.length % bs ≠ 0 ∧ g = (chunkify bs f).length / V + 1
    · rw [if_pos hc] at hm2
      have hbc : b.content = encrypt ks (encodeMeta
          ⟨window_hashes hashFn (chunkify bs f) V (chunkify bs f).length,
            validator_xor (window_chunks (chunkify bs f) V (chunkify bs f).length)⟩) := by
        simpa using hm2
      have hNmod : (chunkify bs f).length % V ≠ 0 := by
        intro h0
        have hbn : block_number (chunkify bs f).length V =
            (chunkify bs f).length / V := by
          unfold block_number
          rw [if_neg (by omega)]
          omega
        rw [hbn] at hgG
        omega
      have hr : group_range V (chunkify bs f).length ((chunkify bs f).length / V + 1) =
          List.range' (V * ((chunkify bs f).length / V) + 1)
            ((chunkify bs f).length % V) :=
        group_range_trailing V (chunkify bs f).length hV hNmod
      have hgm : group_meta hashFn (chunkify bs f) V g =
          ⟨window_hashes hashFn (chunkify bs f) V (chunkify bs f).length,
            validator_xor (window_chunks (chunkify bs f) V (chunkify bs f).length)⟩ := by
        rw [hc.2]
        unfold group_meta group_hashes group_chunks window_hashes window_chunks
        rw [hr]
      rw [hpc, hbc, decrypt_encrypt, decodeMeta_encodeMeta, hgm]
    · rw [if_neg hc] at hm2
      cases hm2

/-- C1: for every file and all parameters `block_size ≥ 1`, `D ≥ 1`, `V ≥ 2`
with a non-empty peer list, distributing the file and then restoring it from
the staged blocks of healthy peers (every sent block stored and returned
unmodified) writes bytes identical to the file and the restore task exits
with `success = true`. -/
theorem distribute_restore_roundtrip (ks : Nat → Nat) (hashFn : Bytes → Bytes)
    (f : Bytes) (bs D V P : Nat) (hbs : 1 ≤ bs) (hD : 1 ≤ D) (hV : 2 ≤ V)
    (hP : 1 ≤ P) :
    (restore_run hashFn (block_number f.length bs) V
        (stage_blocks ks (distribute_run ks hashFn (some f) bs D V P).sends)).written =
      some f ∧
    (restore_run hashFn (block_number f.length bs) V
        (stage_blocks ks (distribute_run ks hashFn (some f) bs D V P).sends)).success =
      true := by
  have hV1 : 1 ≤ V := by omega
  have hN : block_number f.length bs = (chunkify bs f).length :=
    (chunkify_length bs f hbs).symm
  rw [hN]
  obtain ⟨hw, hs, _, _⟩ := restore_correct hashFn V (chunkify bs f)
    (stage_blocks ks (distribute_run ks hashFn (some f) bs D V P).sends)
    (fun _ => false) hV1
    (staged_data_content_sub ks hashFn f bs D V P hbs hV1 _ (fun b hb => hb))
    (fun n hn1 hnN _ => staged_present_of_sends_data ks _ n (by
      rw [distribute_run_data ks hashFn f bs D V P hbs hV1 n, if_pos ⟨hn1, hnN⟩]
      simp
      omega))
    (fun n _ _ hl => by cases hl)
    (staged_meta_content_sub ks hashFn f bs D V P hbs hV1 _ (fun b hb => hb))
    (fun n _ _ hl => by cases hl)
    (fun g2 _ _ => by simp)
    (fun n m _ _ hl => by cases hl)
  rw [chunkify_flatten] at hw
  exact ⟨hw, hs⟩

/-- Witness for `distribute_restore_roundtrip`: the file `[1, 2, 3]` with
`block_size = 2`, `D = 1`, `V = 2` and one peer round-trips. -/
theorem distribute_restore_roundtrip_witness :
    (1 ≤ 2 ∧ 1 ≤ 1 ∧ 2 ≤ 2 ∧ 1 ≤ 1) ∧
      ((restore_run hashId (block_number (List.length [1, 2, 3]) 2) 2
          (stage_blocks ksZero
            (distribute_run ksZero hashId (some [1, 2, 3]) 2 1 2 1).sends)).written =
        some [1, 2, 3] ∧
       (restore_run hashId (block_number (List.length [1, 2, 3]) 2) 2
          (stage_blocks ksZero
            (distribute_run ksZero hashId (some [1, 2, 3]) 2 1 2 1).sends)).success =
        true) :=
  ⟨⟨by decide, by decide, by decide, by decide⟩,
    distribute_restore_roundtrip ksZero hashId [1, 2, 3] 2 1 2 1
      (by decide) (by decide) (by decide) (by decide)⟩

/-! ### Losing every duplicate of selected data blocks -/

theorem sends_data_cons (b : Blk) (out : List Blk) (n : Nat) :
    sends_data (b :: out) n =
      (if b.block_type = BType.data ∧ b.number = n then [b.content] else []) ++
        sends_data out n := by
  unfold sends_data
  by_cases hb : b.block_type = BType.data ∧ b.number = n
  · rw [List.filter_cons_of_pos (by simp [hb.1, hb.2]), if_pos hb, List.map_cons]
    rfl
  · rw [List.filter_cons_of_neg (by simp only [Bool.and_eq_true, beq_iff_eq]; exact hb),
      if_neg hb]
    rfl

theorem sends_meta_cons (b : Blk) (out : List Blk) (g : Nat) :
    sends_meta (b :: out) g =
      (if b.block_type = BType.metadata ∧ b.number = g then [b.content] else []) ++
        sends_meta out g := by
  unfold sends_meta
  by_cases hb : b.block_type = BType.metadata ∧ b.number = g
  · rw [List.filter_cons_of_pos (by simp [hb.1, hb.2]), if_pos hb, List.map_cons]
    rfl
  · rw [List.filter_cons_of_neg (by simp only [Bool.and_eq_true, beq_iff_eq]; exact hb),
      if_neg hb]
    rfl

theorem sends_data_filter_keep (out : List Blk) (lost : Nat → Bool) (n : Nat)
    (h : lost n = false) :
    sends_data (out.filter
        (fun b => !(b.block_type == BType.data && lost b.number))) n =
      sends_data out n := by
  induction out with
  | nil => rfl
  | cons b rest ih =>
    by_cases hq : (!(b.block_type == BType.data && lost b.number)) = true
    · rw [@List.filter_cons_of_pos Blk (fun b => !(b.block_type == BType.data && lost b.number)) b rest hq, sends_data_cons, sends_data_cons, ih]
    · rw [@List.filter_cons_of_neg Blk (fun b => !(b.block_type == BType.data && lost b.number)) b rest hq, sends_data_cons, ih]
      have hq' : (b.block_type == BType.data && lost b.number) = true := by
        revert hq
        cases hqq : (b.block_type == BType.data && lost b.number) <;> simp
      simp only [Bool.and_eq_true, beq_iff_eq] at hq'
      have hbn : ¬(b.block_type = BType.data ∧ b.number = n) := by
        intro hc
        rw [hc.2] at hq'
        rw [hq'.2] at h
        cases h
      rw [if_neg hbn]
      rfl

theorem sends_data_filter_lost (out : List Blk) (lost : Nat → Bool) (n : Nat)
    (h : lost n = true) :
    sends_data (out.filter
        (fun b => !(b.block_type == BType.data && lost b.number))) n = [] := by
  induction out with
  | nil => rfl
  | cons b rest ih =>
    by_cases hq : (!(b.block_type == BType.data && lost b.number)) = true
    · rw [@List.filter_cons_of_pos Blk (fun b => !(b.block_type == BType.data && lost b.number)) b rest hq, sends_data_cons, ih]
      have hbn : ¬(b.block_type = BType.data ∧ b.number = n) := by
        intro hc
        have hq2 : (b.block_type == BType.data && lost b.number) = false := by
          revert hq
          cases hqq : (b.block_type == BType.data && lost b.number) <;> simp
        rw [hc.1, hc.2] at hq2
        simp [h] at hq2
      rw [if_neg hbn]
      rfl
    · rw [@List.filter_cons_of_neg Blk (fun b => !(b.block_type == BType.data && lost b.number)) b rest hq]
      exact ih

theorem sends_meta_filter (out : List Blk) (lost : Nat → Bool) (g : Nat) :
    sends_meta (out.filter
        (fun b => !(b.block_type == BType.data && lost b.number))) g =
      sends_meta out g := by
  induction out with
  | nil => rfl
  | cons b rest ih =>
    by_cases hq : (!(b.block_type == BType.data && lost b.number)) = true
    · rw [@List.filter_cons_of_pos Blk (fun b => !(b.block_type == BType.data && lost b.number)) b rest hq, sends_meta_cons, sends_meta_cons, ih]
    · rw [@List.filter_cons_of_neg Blk (fun b => !(b.block_type == BType.data && lost b.number)) b rest hq, sends_meta_cons, ih]
      have hq' : (b.block_type == BType.data && lost b.number) = true := by
        revert hq
        cases hqq : (b.block_type == BType.data && lost b.number) <;> simp
      simp only [Bool.and_eq_true, beq_iff_eq] at hq'
      have hbn : ¬(b.block_type = BType.metadata ∧ b.number = g) := by
        intro hc
        rw [hc.1] at hq'
        cases hq'.1
      rw [if_neg hbn]
      rfl

/-- The messages that survive when every duplicate of each data block whose
number satisfies `lost` is lost; all other peers stay healthy. -/
def surviving_sends (ks : Nat → Nat) (hashFn : Bytes → Bytes) (f : Bytes)
    (bs D V P : Nat) (lost : Nat → Bool) : List Blk :=
  (distribute_run ks hashFn (some f) bs D V P).sends.filter
    (fun b => !(b.block_type == BType.data && lost b.number))

/-- C2 amended: single-loss recovery additionally requires each lost block's
content to have the maximal length within its parity group (otherwise the
XOR-rebuilt block is zero-padded and fails the digest check). -/
theorem single_loss_recovery (ks : Nat → Nat) (hashFn : Bytes → Bytes)
    (f : Bytes) (bs D V P : Nat) (lost : Nat → Bool)
    (hbs : 1 ≤ bs) (hD : 1 ≤ D) (hV : 2 ≤ V) (hP : 1 ≤ P)
    (hloss : ∀ g, 1 ≤ g → g ≤ block_number (chunkify bs f).length V →
        ((group_range V (chunkify bs f).length g).filter lost).length ≤ 1)
    (hmeta : ∀ n, 1 ≤ n → n ≤ (chunkify bs f).length → lost n = true →
        (meta_path_of (stage_blocks ks (surviving_sends ks hashFn f bs D V P lost))
          (group_of V n)).isSome = true)
    (hmax : ∀ n m, 1 ≤ n → n ≤ (chunkify bs f).length → lost n = true →
        m ∈ group_range V (chunkify bs f).length (group_of V n) →
        ((chunkify bs f).getD (m - 1) []).length ≤
          ((chunkify bs f).getD (n - 1) []).length) :
    (restore_run hashFn (block_number f.length bs) V
        (stage_blocks ks (surviving_sends ks hashFn f bs D V P lost))).written =
      some f ∧
    (restore_run hashFn (block_number f.length bs) V
        (stage_blocks ks (surviving_sends ks hashFn f bs D V P lost))).success =
      true := by
  have hV1 : 1 ≤ V := by omega
  have hN : block_number f.length bs = (chunkify bs f).length :=
    (chunkify_length bs f hbs).symm
  rw [hN]
  obtain ⟨hw, hs, _, _⟩ := restore_correct hashFn V (chunkify bs f)
    (stage_blocks ks (surviving_sends ks hashFn f bs D V P lost)) lost hV1
    (staged_data_content_sub ks hashFn f bs D V P hbs hV1 _
      (fun b hb => List.mem_of_mem_filter hb))
    (fun n hn1 hnN hl => staged_present_of_sends_data ks _ n (by
      unfold surviving_sends
      rw [sends_data_filter_keep _ lost n hl,
        distribute_run_data ks hashFn f bs D V P hbs hV1 n, if_pos ⟨hn1, hnN⟩]
      simp
      omega))
    (fun n hn1 hnN hl => staged_absent_of_sends_data ks _ n (by
      unfold surviving_sends
      exact sends_data_filter_lost _ lost n hl))
    (staged_meta_content_sub ks hashFn f bs D V P hbs hV1 _
      (fun b hb => List.mem_of_mem_filter hb))
    (fun n hn1 hnN hl => Option.isSome_iff_exists.mp (hmeta n hn1 hnN hl))
    hloss hmax
  rw [chunkify_flatten] at hw
  exact ⟨hw, hs⟩

def c2sends : List Blk :=
  (distribute_run ksZero hashId (some [1, 2, 3]) 2 1 2 1).sends.filter
    (fun b => !(b.block_type == BType.data && b.number == 2))

def c2staged : List Blk := stage_blocks ksZero c2sends

/-- C2 counterexample: distribute the 3-byte file `[1, 2, 3]` with
`block_size = 2`, `D = 1`, `V = 2`, one peer, and lose every copy of DATA
block 2 (the short trailing chunk `[3]`).  At most one block is missing in
each parity group and group 1's metadata is present and decodes correctly,
yet the restore ends corrupted with nothing written: the XOR-rebuilt block
is `[3, 0]` (zero-padded to the longest block of the group), whose digest
does not match the recorded digest of `[3]`. -/
theorem single_loss_short_block_corrupts :
    get_data_blocks c2staged 2 = [] ∧
    get_data_blocks c2staged 1 ≠ [] ∧
    (∀ g ∈ List.range' 1 (block_number 3 2),
      ((group_range 2 (block_number 3 2) g).filter (fun n => n == 2)).length ≤ 1) ∧
    (meta_path_of c2staged 1).map (fun p => decodeMeta p.content) =
      some (some (group_meta hashId (chunkify 2 [1, 2, 3]) 2 1)) ∧
    (restore_run hashId (block_number 3 2) 2 c2staged).corrupted = true ∧
    (restore_run hashId (block_number 3 2) 2 c2staged).success = false ∧
    (restore_run hashId (block_number 3 2) 2 c2staged).written = none := by
  decide

/-- Witness for `single_loss_recovery`: the file `[1, 2, 3, 4]` with
`block_size = 2`, `D = 1`, `V = 2`, one peer, losing every copy of DATA
block 2 — all chunks have length 2, so the maximal-length condition holds,
and the restore repairs the block and round-trips. -/
theorem single_loss_recovery_witness :
    ((1 ≤ 2 ∧ 1 ≤ 1 ∧ 2 ≤ 2 ∧ 1 ≤ 1) ∧
      (∀ g, 1 ≤ g → g ≤ block_number (chunkify 2 [1, 2, 3, 4]).length 2 →
        ((group_range 2 (chunkify 2 [1, 2, 3, 4]).length g).filter
          (fun n => n == 2)).length ≤ 1) ∧
      (∀ n, 1 ≤ n → n ≤ (chunkify 2 [1, 2, 3, 4]).length → (n == 2) = true →
        (meta_path_of (stage_blocks ksZero
            (surviving_sends ksZero hashId [1, 2, 3, 4] 2 1 2 1 (fun n => n == 2)))
          (group_of 2 n)).isSome = true) ∧
      (∀ n m, 1 ≤ n → n ≤ (chunkify 2 [1, 2, 3, 4]).length → (n == 2) = true →
        m ∈ group_range 2 (chunkify 2 [1, 2, 3, 4]).length (group_of 2 n) →
        ((chunkify 2 [1, 2, 3, 4]).getD (m - 1) []).length ≤
          ((chunkify 2 [1, 2, 3, 4]).getD (n - 1) []).length)) ∧
    ((restore_run hashId (block_number (List.length [1, 2, 3, 4]) 2) 2
        (stage_blocks ksZero
          (surviving_sends ksZero hashId [1, 2, 3, 4] 2 1 2 1
            (fun n => n == 2)))).written = some [1, 2, 3, 4] ∧
     (restore_run hashId (block_number (List.length [1, 2, 3, 4]) 2) 2
        (stage_blocks ksZero
          (surviving_sends ksZero hashId [1, 2, 3, 4] 2 1 2 1
            (fun n => n == 2)))).success = true) := by
  refine ⟨⟨⟨by decide, by decide, by decide, by decide⟩, ?_, ?_, ?_⟩, ?_⟩
  · intro g hg1 hgG
    have hG : block_number (chunkify 2 [1, 2, 3, 4]).length 2 = 1 := by decide
    rw [hG] at hgG
    have hgc : g = 1 := by omega
    rcases hgc with rfl
    decide
  · intro n hn1 hnN hl
    have hN4 : (chunkify 2 [1, 2, 3, 4]).length = 2 := by decide
    rw [hN4] at hnN
    have hnc : n = 1 ∨ n = 2 := by omega
    rcases hnc with rfl | rfl
    · exact absurd hl (by decide)
    · decide
  · intro n m hn1 hnN hl hm
    have hN4 : (chunkify 2 [1, 2, 3, 4]).length = 2 := by decide
    rw [hN4] at hnN hm
    have hnc : n = 1 ∨ n = 2 := by omega
    rcases hnc with rfl | rfl
    · exact absurd hl (by decide)
    · have hmr : m ∈ [1, 2] := by
        rw [show group_range 2 2 (group_of 2 2) = [1, 2] from by decide] at hm
        exact hm
      have hmc : m = 1 ∨ m = 2 := by simpa using hmr
      rcases hmc with rfl | rfl <;> decide
  · exact single_loss_recovery ksZero hashId [1, 2, 3, 4] 2 1 2 1 (fun n => n == 2)
      (by decide) (by decide) (by decide) (by decide)
      (by
        intro g hg1 hgG
        have hG : block_number (chunkify 2 [1, 2, 3, 4]).length 2 = 1 := by decide
        rw [hG] at hgG
        have hgc : g = 1 := by omega
        rcases hgc with rfl
        decide)
      (by
        intro n hn1 hnN hl
        have hN4 : (chunkify 2 [1, 2, 3, 4]).length = 2 := by decide
        rw [hN4] at hnN
        have hnc : n = 1 ∨ n = 2 := by omega
        rcases hnc with rfl | rfl
        · exact absurd hl (by decide)
        · decide)
      (by
        intro n m hn1 hnN hl hm
        have hN4 : (chunkify 2 [1, 2, 3, 4]).length = 2 := by decide
        rw [hN4] at hnN hm
        have hnc : n = 1 ∨ n = 2 := by omega
        rcases hnc with rfl | rfl
        · exact absurd hl (by decide)
        · have hmr : m ∈ [1, 2] := by
            rw [show group_range 2 2 (group_of 2 2) = [1, 2] from by decide] at hm
            exact hm
          have hmc : m = 1 ∨ m = 2 := by simpa using hmr
          rcases hmc with rfl | rfl <;> decide)

end HayaData

